import Mathlib

/-!
Verification of the `gwapi-graph` graph/zone builder
(`internal/api/handler.go`, `internal/types/types.go`).

The Go code is shallowly embedded: Go strings are Lean `String`s, Go
slices are Lean `List`s, Go maps are association lists with
insert-overwrite semantics (key order preserved on update, new keys
appended), and the one place where Go map iteration order leaks into the
output (the final `range dnsZoneMap` feeding the depth sort) is made an
explicit parameter constrained to be a permutation of the map's keys.
-/

namespace GwapiGraph

/-- `strings.Split` on `'.'`, at the character-list level. -/
def splitChars : List Char → List (List Char)
  | [] => [[]]
  | c :: rest =>
    if c = '.' then [] :: splitChars rest
    else
      match splitChars rest with
      | [] => [[c]]
      | p :: ps => (c :: p) :: ps

/-- `strings.Join` with separator `"."`, at the character-list level. -/
def joinChars : List (List Char) → List Char
  | [] => []
  | [p] => p
  | p :: ps => p ++ '.' :: joinChars ps

/-- `strings.Split(s, ".")`. -/
def splitDots (s : String) : List String :=
  (splitChars s.data).map (fun cs => String.mk cs)

/-- `strings.Join(parts, ".")`. -/
def joinDots (parts : List String) : String :=
  String.mk (joinChars (parts.map String.data))

/-- `strings.HasPrefix(s, "*.")` followed by `strings.TrimPrefix(s, "*.")`. -/
def stripWildcard (s : String) : String :=
  match s.data with
  | '*' :: '.' :: rest => String.mk rest
  | _ => s

/-- `strings.HasSuffix(s, ".")` followed by `strings.TrimSuffix(s, ".")`. -/
def stripTrailingDot (s : String) : String :=
  if s.data.getLast? = some '.' then String.mk s.data.dropLast else s

/-- `isOpenShiftStyleDomain`: at least 6 labels, and some label equals
`"apps"` at an index strictly after 0 and strictly before `len-3`. -/
def isOpenShiftStyleDomain (parts : List String) : Bool :=
  if parts.length < 6 then false
  else parts.enum.any (fun ip =>
    ip.2 = "apps" && decide (0 < ip.1) && decide (ip.1 < parts.length - 3))

/-- `isClusterInternalDomain`: `cluster.local` suffix, or the
`svc.*.cluster.local` form. -/
def isClusterInternalDomain (parts : List String) : Bool :=
  if parts.length < 3 then false
  else
    (decide (2 ≤ parts.length) && parts.getD (parts.length - 2) "" = "cluster"
      && parts.getD (parts.length - 1) "" = "local")
    || (decide (4 ≤ parts.length) && parts.getD (parts.length - 4) "" = "svc"
      && parts.getD (parts.length - 2) "" = "cluster"
      && parts.getD (parts.length - 1) "" = "local")

/-- `extractOpenShiftZone`: suffix starting one label before the first
`"apps"` label, with fallbacks. -/
def extractOpenShiftZone (parts : List String) : String :=
  match parts.findIdx? (fun p => p = "apps") with
  | none => joinDots (parts.drop (parts.length - 3))
  | some appsIndex =>
    if 0 < appsIndex then joinDots (parts.drop (appsIndex - 1))
    else joinDots parts

/-- `extractClusterInternalZone`: last 4 labels when the 4th-from-last is
`"svc"`, else last 3. -/
def extractClusterInternalZone (parts : List String) : String :=
  if 4 ≤ parts.length ∧ parts.getD (parts.length - 4) "" = "svc" then
    joinDots (parts.drop (parts.length - 4))
  else joinDots (parts.drop (parts.length - 3))

/-- `extractDNSZone`: the legacy single-zone fallback. -/
def extractDNSZone (hostname : String) : String :=
  if hostname = "" then ""
  else
    let hostname := stripWildcard hostname
    let parts := splitDots hostname
    if parts.length < 2 then hostname
    else if isOpenShiftStyleDomain parts then extractOpenShiftZone parts
    else if isClusterInternalDomain parts then extractClusterInternalZone parts
    else if 6 ≤ parts.length then joinDots (parts.drop (parts.length - 4))
    else if 4 ≤ parts.length then joinDots (parts.drop (parts.length - 3))
    else joinDots (parts.drop (parts.length - 2))

/-- The raw zone candidates of `extractHierarchicalZones`, before
deduplication: the OpenShift branch emits suffixes from index
`appsIndex-1` up to `len-2`; the generic branch runs `i` from `len-2`
down to `0` (its `i < len(parts)-1` guard is always true in that range,
so the full hostname is emitted at `i = 0`). -/
def rawHierarchicalZones (parts : List String) : List String :=
  if isOpenShiftStyleDomain parts then
    match parts.findIdx? (fun p => p = "apps") with
    | some appsIndex =>
      if 0 < appsIndex then
        ((List.range (parts.length - 1)).drop (appsIndex - 1)).map
          (fun i => joinDots (parts.drop i))
      else []
    | none => []
  else
    ((List.range (parts.length - 1)).reverse).map
      (fun i => joinDots (parts.drop i))

/-- The deduplication loop: keep first occurrences, drop empty strings
(`!uniqueZones[zone] && zone != ""`). -/
def dedupZonesAux (seen : List String) : List String → List String
  | [] => []
  | z :: rest =>
    if z ∉ seen ∧ z ≠ "" then z :: dedupZonesAux (z :: seen) rest
    else dedupZonesAux seen rest

/-- `extractHierarchicalZones`: ordered candidate zones for one hostname. -/
def extractHierarchicalZones (hostname : String) : List String :=
  if hostname = "" then []
  else
    let hostname := stripWildcard hostname
    let parts := splitDots hostname
    if parts.length < 2 then [hostname]
    else
      let result := dedupZonesAux [] (rawHierarchicalZones parts)
      let basicZone := extractDNSZone hostname
      if basicZone ∉ result ∧ basicZone ≠ "" then result ++ [basicZone]
      else result

/-- One entry of `gw.Spec.Listeners`. `tls` records whether
`listener.TLS != nil`. -/
structure ListenerSpec where
  name : String
  port : Int
  protocol : String
  hostname : Option String
  tls : Bool
deriving DecidableEq, Repr

structure GatewayClass where
  uid : String
  name : String
deriving DecidableEq, Repr

structure Gateway where
  uid : String
  name : String
  namespace' : String
  gatewayClassName : String
  listeners : List ListenerSpec
deriving DecidableEq, Repr

structure ParentRef where
  name : String
  namespace' : Option String
deriving DecidableEq, Repr

structure BackendRef where
  name : String
  namespace' : Option String
deriving DecidableEq, Repr

/-- One entry of `route.Spec.Rules`, keeping only its `BackendRefs`. -/
structure RouteRuleSpec where
  backendRefs : List BackendRef
deriving DecidableEq, Repr

structure HTTPRoute where
  uid : String
  name : String
  namespace' : String
  parentRefs : List ParentRef
  hostnames : List String
  rules : List RouteRuleSpec
deriving DecidableEq, Repr

structure ReferenceGrant where
  uid : String
  name : String
  namespace' : String
deriving DecidableEq, Repr

/-- A DNSRecord unstructured object, reduced to the fields `buildGraph`
reads: `metadata.uid/name/namespace`, `spec.dnsName` (absent ⇒ `""`, as
`unstructured.NestedString` returns the zero value), and the
`gateway.networking.k8s.io/gateway-name` label (`none` when the label is
absent or not a string). -/
structure DNSRecord where
  uid : String
  name : String
  namespace' : String
  dnsName : String
  gatewayLabel : Option String
deriving DecidableEq, Repr

structure Service where
  uid : String
  name : String
  namespace' : String
deriving DecidableEq, Repr

structure ResourceCollection where
  gatewayClasses : List GatewayClass
  gateways : List Gateway
  httpRoutes : List HTTPRoute
  referenceGrants : List ReferenceGrant
  dnsRecords : List DNSRecord
  services : List Service
deriving DecidableEq, Repr

structure ListenerData where
  port : Int
  protocol : String
  hostname : Option String
  tls : Bool
deriving DecidableEq, Repr

/-- `types.Node`. Go zero values: `parentID = none`, `hidden = false`,
`listenerData = none`, `dnsZone = ""`, `hostname = ""`. -/
structure Node where
  id : String
  name : String
  type : String
  namespace' : String
  group : String
  version : String
  kind : String
  parentID : Option String := none
  listenerData : Option ListenerData := none
  hidden : Bool := false
  dnsZone : String := ""
  hostname : String := ""
deriving DecidableEq, Repr

structure Link where
  source : Nat
  target : Nat
  type : String
deriving DecidableEq, Repr

structure DNSZoneOut where
  name : String
  nodes : List String
  color : String
deriving DecidableEq, Repr

structure Graph where
  nodes : List Node
  links : List Link
  dnsZones : List DNSZoneOut
deriving DecidableEq, Repr

def getKey? {α : Type} (m : List (String × α)) (k : String) : Option α :=
  (m.find? (fun kv => kv.1 = k)).map (fun kv => kv.2)

def setKey {α : Type} : List (String × α) → String → α → List (String × α)
  | [], k, v => [(k, v)]
  | (k', v') :: rest, k, v =>
    if k' = k then (k, v) :: rest else (k', v') :: setKey rest k v

def keysOf {α : Type} (m : List (String × α)) : List String := m.map (fun kv => kv.1)

/-- `m[k] = append(m[k], x)` for a `map[string][]string`. -/
def appendKey (m : List (String × List String)) (k : String) (x : String) :
    List (String × List String) :=
  setKey m k ((getKey? m k).getD [] ++ [x])

/-- `fmt.Sprintf("%s-listener-%d", uid, i)`. -/
def listenerId (uid : String) (i : Nat) : String :=
  uid ++ "-listener-" ++ toString i

/-- Accumulator of the node-emission passes: the growing node and link
slices, the `nodeMap` from id to position, and the running index. -/
structure NodesState where
  nodes : List Node
  links : List Link
  nodeMap : List (String × Nat)
  nodeIndex : Nat
deriving Repr

def NodesState.push (st : NodesState) (n : Node) : NodesState :=
  { st with
    nodes := st.nodes ++ [n]
    nodeMap := setKey st.nodeMap n.id st.nodeIndex
    nodeIndex := st.nodeIndex + 1 }

/-- Go's `nodeMap[k]` read (zero value `0` when the key is absent). -/
def mapIdx (m : List (String × Nat)) (k : String) : Nat :=
  (getKey? m k).getD 0

def addGatewayClassNodes (st : NodesState) (gcs : List GatewayClass) : NodesState :=
  gcs.foldl (fun st gc =>
    st.push
      { id := gc.uid, name := gc.name, type := "GatewayClass", namespace' := "",
        group := "gateway.networking.k8s.io", version := "v1", kind := "GatewayClass" })
    st

/-- The synthesized Listener node for entry `i` of a gateway's listener
list. -/
def mkListenerNode (gw : Gateway) (i : Nat) (listener : ListenerSpec) : Node :=
  let hostname := match listener.hostname with
    | some h => h
    | none => ""
  { id := listenerId gw.uid i
    name := if listener.name = "" then "listener-" ++ toString i else listener.name
    type := "Listener", namespace' := gw.namespace'
    group := "gateway.networking.k8s.io", version := "v1", kind := "Listener"
    parentID := some gw.uid
    hidden := false
    listenerData := some
      { port := listener.port, protocol := listener.protocol
        hostname := if hostname ≠ "" then some hostname else none
        tls := listener.tls } }

def addGatewayNodes (st : NodesState) (gcs : List GatewayClass)
    (gws : List Gateway) : NodesState :=
  gws.foldl (fun st gw =>
    let node : Node :=
      { id := gw.uid, name := gw.name, type := "Gateway", namespace' := gw.namespace',
        group := "gateway.networking.k8s.io", version := "v1", kind := "Gateway" }
    let st := st.push node
    let st := gw.listeners.enum.foldl (fun st il =>
      let st := st.push (mkListenerNode gw il.1 il.2)
      { st with links := st.links ++
          [{ source := mapIdx st.nodeMap gw.uid
             target := mapIdx st.nodeMap (listenerId gw.uid il.1)
             type := "listener" }] }) st
    if gw.gatewayClassName ≠ "" then
      match gcs.find? (fun gc => gw.gatewayClassName = gc.name) with
      | some gc =>
        { st with links := st.links ++
            [{ source := mapIdx st.nodeMap gc.uid
               target := mapIdx st.nodeMap node.id
               type := "gatewayClassRef" }] }
      | none => st
    else st) st

/-- The `parentRef` match condition of the HTTPRoute pass: name empty or
equal, and namespace unset, equal to the route's, or equal to the
gateway's. -/
def parentRefMatches (pref : ParentRef) (route : HTTPRoute) (gw : Gateway) : Bool :=
  (pref.name = "" || pref.name = gw.name)
    && (pref.namespace' = none || pref.namespace' = some route.namespace'
        || pref.namespace' = some gw.namespace')

/-- The `parentRef` links one HTTPRoute emits: for each declared parent
reference, one edge from every matching gateway. -/
def routeParentLinks (route : HTTPRoute) (gws : List Gateway)
    (nodeMap : List (String × Nat)) : List Link :=
  route.parentRefs.flatMap (fun pref =>
    (gws.filter (fun gw => parentRefMatches pref route gw)).map (fun gw =>
      { source := mapIdx nodeMap gw.uid
        target := mapIdx nodeMap route.uid
        type := "parentRef" }))

def addHTTPRouteNodes (st : NodesState) (gws : List Gateway)
    (routes : List HTTPRoute) : NodesState :=
  routes.foldl (fun st route =>
    let node : Node :=
      { id := route.uid, name := route.name, type := "HTTPRoute",
        namespace' := route.namespace',
        group := "gateway.networking.k8s.io", version := "v1", kind := "HTTPRoute" }
    let st := st.push node
    { st with links := st.links ++ routeParentLinks route gws st.nodeMap }) st

def addReferenceGrantNodes (st : NodesState) (grants : List ReferenceGrant) :
    NodesState :=
  grants.foldl (fun st grant =>
    st.push
      { id := grant.uid, name := grant.name, type := "ReferenceGrant",
        namespace' := grant.namespace',
        group := "gateway.networking.k8s.io", version := "v1beta1",
        kind := "ReferenceGrant" }) st

/-- The `dnsRecord` links one DNSRecord emits.  The gateway-name label is
resolved to the first gateway with that name in the record's namespace;
its listeners are scanned in order and the first whose hostname equals
the record's DNS name (trailing dot stripped) receives the edge;
otherwise the edge goes to the gateway itself. -/
def dnsRecordLinks (dns : DNSRecord) (gws : List Gateway)
    (nodeMap : List (String × Nat)) : List Link :=
  match dns.gatewayLabel with
  | none => []
  | some gatewayNameStr =>
    let dnsName := stripTrailingDot dns.dnsName
    match gws.find? (fun gw =>
        gw.name = gatewayNameStr && gw.namespace' = dns.namespace') with
    | none => []
    | some gw =>
      match gw.listeners.enum.find? (fun il =>
          il.2.hostname = some dnsName
            && (getKey? nodeMap (listenerId gw.uid il.1)).isSome) with
      | some il =>
        [{ source := mapIdx nodeMap (listenerId gw.uid il.1)
           target := mapIdx nodeMap dns.uid, type := "dnsRecord" }]
      | none =>
        if (getKey? nodeMap gw.uid).isSome then
          [{ source := mapIdx nodeMap gw.uid
             target := mapIdx nodeMap dns.uid, type := "dnsRecord" }]
        else []

def addDNSRecordNodes (st : NodesState) (gws : List Gateway)
    (dnss : List DNSRecord) : NodesState :=
  dnss.foldl (fun st dns =>
    let node : Node :=
      { id := dns.uid, name := dns.name, type := "DNSRecord",
        namespace' := dns.namespace',
        group := "ingress.operator.openshift.io", version := "v1",
        kind := "DNSRecord", hostname := stripTrailingDot dns.dnsName }
    let st := st.push node
    { st with links := st.links ++ dnsRecordLinks dns gws st.nodeMap }) st

def addServiceNodes (st : NodesState) (svcs : List Service) : NodesState :=
  svcs.foldl (fun st svc =>
    st.push
      { id := svc.uid, name := svc.name, type := "Service",
        namespace' := svc.namespace',
        group := "", version := "v1", kind := "Service" }) st

/-- All six node-emission passes, in build order. -/
def buildNodesPhase (resources : ResourceCollection) : NodesState :=
  let st : NodesState := { nodes := [], links := [], nodeMap := [], nodeIndex := 0 }
  let st := addGatewayClassNodes st resources.gatewayClasses
  let st := addGatewayNodes st resources.gatewayClasses resources.gateways
  let st := addHTTPRouteNodes st resources.gateways resources.httpRoutes
  let st := addReferenceGrantNodes st resources.referenceGrants
  let st := addDNSRecordNodes st resources.gateways resources.dnsRecords
  addServiceNodes st resources.services

/-- The trailing `backendRef` pass: one link per backend reference whose
service resolves, to the first service matching the name and the
(defaulted) namespace. -/
def backendRefLinks (routes : List HTTPRoute) (svcs : List Service)
    (nodeMap : List (String × Nat)) : List Link :=
  routes.flatMap (fun route =>
    route.rules.flatMap (fun rule =>
      rule.backendRefs.flatMap (fun backendRef =>
        let serviceName := backendRef.name
        let serviceNamespace := match backendRef.namespace' with
          | some ns => ns
          | none => route.namespace'
        match svcs.find? (fun svc =>
            svc.name = serviceName && svc.namespace' = serviceNamespace) with
        | some svc =>
          [{ source := mapIdx nodeMap route.uid
             target := mapIdx nodeMap svc.uid, type := "backendRef" }]
        | none => [])))

/-- The three per-build zone accumulators:
`dnsZoneMap : zone name → member node ids`,
`nodeZoneMap : node id → zones it belongs to`,
`nodePrimaryZone : node id → primary zone`. -/
structure ZoneState where
  dnsZoneMap : List (String × List String)
  nodeZoneMap : List (String × List String)
  nodePrimaryZone : List (String × String)
deriving DecidableEq, Repr

/-- Add `id` to every zone of `zones` (and each zone to `id`'s list), in
order. -/
def addToZones (st : ZoneState) (id : String) (zones : List String) : ZoneState :=
  zones.foldl (fun st zone =>
    { st with
      dnsZoneMap := appendKey st.dnsZoneMap zone id
      nodeZoneMap := appendKey st.nodeZoneMap id zone }) st

/-- One step of the DNSRecord zone pass: record `dnsName → uid` in
`dnsRecordHostnames`, add the record to all its hierarchical zones, and
set its primary zone to the first (unconditionally). -/
def dnsZoneStep (acc : List (String × String) × ZoneState) (dns : DNSRecord) :
    List (String × String) × ZoneState :=
  let (hostMap, st) := acc
  let dnsName := stripTrailingDot dns.dnsName
  if dnsName ≠ "" then
    let hostMap := setKey hostMap dnsName dns.uid
    match extractHierarchicalZones dnsName with
    | [] => (hostMap, st)
    | z0 :: zs =>
      let st := addToZones st dns.uid (z0 :: zs)
      (hostMap, { st with
        nodePrimaryZone := setKey st.nodePrimaryZone dns.uid z0 })
  else acc

/-- The DNSRecord zone pass. -/
def dnsZonePass (dnss : List DNSRecord) :
    List (String × String) × ZoneState :=
  dnss.foldl dnsZoneStep
    ([], { dnsZoneMap := [], nodeZoneMap := [], nodePrimaryZone := [] })

/-- One hostname's zone-assignment attempt, shared by the HTTPRoute and
listener passes: inherit the zone list and primary zone of an
exact-match DNSRecord when one exists, else extract zones independently
(setting the primary only if unset).  Returns `none` when the hostname
yields no assignment at all. -/
def zoneAssignStep (hostMap : List (String × String)) (st : ZoneState)
    (id : String) (hostnameStr : String) : Option ZoneState :=
  let inherited : Option ZoneState :=
    match getKey? hostMap hostnameStr with
    | some dnsUID =>
      match getKey? st.nodeZoneMap dnsUID with
      | some dnsZones =>
        let st := addToZones st id dnsZones
        some (match getKey? st.nodePrimaryZone dnsUID with
          | some primaryZone =>
            { st with nodePrimaryZone := setKey st.nodePrimaryZone id primaryZone }
          | none => st)
      | none => none
    | none => none
  match inherited with
  | some st => some st
  | none =>
    match extractHierarchicalZones hostnameStr with
    | [] => none
    | z0 :: zs =>
      let st := addToZones st id (z0 :: zs)
      some (if (getKey? st.nodePrimaryZone id).isNone then
        { st with nodePrimaryZone := setKey st.nodePrimaryZone id z0 }
      else st)

/-- The HTTPRoute hostname scan: first hostname that yields an
assignment wins; the rest are not processed. -/
def routeHostLoop (hostMap : List (String × String)) (routeID : String)
    (st : ZoneState) : List String → ZoneState
  | [] => st
  | h :: rest =>
    match zoneAssignStep hostMap st routeID h with
    | some st => st
    | none => routeHostLoop hostMap routeID st rest

def routeZonePass (hostMap : List (String × String)) (st : ZoneState)
    (routes : List HTTPRoute) : ZoneState :=
  routes.foldl (fun st route => routeHostLoop hostMap route.uid st route.hostnames) st

/-- One listener's zone step: listeners without a hostname are skipped;
otherwise the shared two-step rule applies (a failed assignment leaves
the state unchanged). -/
def listenerZoneStep (hostMap : List (String × String)) (uid : String)
    (st : ZoneState) (il : Nat × ListenerSpec) : ZoneState :=
  match il.2.hostname with
  | none => st
  | some hostnameStr =>
    match zoneAssignStep hostMap st (listenerId uid il.1) hostnameStr with
    | some st => st
    | none => st

/-- The listener zone pass: every listener with a declared hostname gets
the same two-step rule, independently. -/
def listenerZonePass (hostMap : List (String × String)) (st : ZoneState)
    (gws : List Gateway) : ZoneState :=
  gws.foldl (fun st gw =>
    gw.listeners.enum.foldl (listenerZoneStep hostMap gw.uid) st) st

/-- The complete zone accumulator state after the three passes. -/
def zoneStateFinal (resources : ResourceCollection) : ZoneState :=
  let (hostMap, st) := dnsZonePass resources.dnsRecords
  let st := routeZonePass hostMap st resources.httpRoutes
  listenerZonePass hostMap st resources.gateways

/-- One entry of the sorted `zones` slice. -/
structure ZoneInfo where
  name : String
  nodeIDs : List String
  depth : Nat
deriving DecidableEq, Repr

/-- `slicesEqual`: multiset comparison via occurrence-count maps (the Go
code checks the lengths and then every count key of the first slice). -/
def slicesEqual (a b : List String) : Bool :=
  if a.length ≠ b.length then false
  else a.all (fun item => a.count item = b.count item)

def zoneInfoOf (dnsZoneMap : List (String × List String)) (zoneName : String) :
    ZoneInfo :=
  { name := zoneName
    nodeIDs := (getKey? dnsZoneMap zoneName).getD []
    depth := (splitDots zoneName).length }

/-- `shouldCreateZone`: no other zone in the slice is strictly deeper
with an identical (as multiset) member list. -/
def shouldCreateZone (allZones : List ZoneInfo) (z : ZoneInfo) : Bool :=
  !(allZones.any (fun other =>
    decide (other.depth > z.depth)
      && other.nodeIDs.length = z.nodeIDs.length
      && slicesEqual other.nodeIDs z.nodeIDs))

def zoneColors : List String :=
  ["#e3f2fd", "#f3e5f5", "#e8f5e8", "#fff3e0", "#fce4ec", "#e0f2f1",
   "#f9fbe7", "#fff8e1"]

/-- One step of the zone emission loop: a retained zone receives the
palette color at the running color index (wrapping modulo the palette
size) and bumps the index; a skipped zone changes nothing. -/
def emitZoneStep (allZones : List ZoneInfo) (acc : List DNSZoneOut × Nat)
    (z : ZoneInfo) : List DNSZoneOut × Nat :=
  if shouldCreateZone allZones z then
    (acc.1 ++
      [{ name := z.name, nodes := z.nodeIDs
         color := zoneColors.getD (acc.2 % zoneColors.length) "" }],
      acc.2 + 1)
  else acc

/-- The zone emission loop. -/
def emitZones (allZones : List ZoneInfo) : List DNSZoneOut :=
  (allZones.foldl (emitZoneStep allZones) ([], 0)).1

/-- Validity of a zone emission order: Go's `range` over `dnsZoneMap`
enumerates each key exactly once in an unspecified order, and
`sort.Slice` (not guaranteed stable) then orders the slice by depth
descending.  Any permutation of the keys whose depths are descending is
a possible outcome. -/
def validZoneOrder (dnsZoneMap : List (String × List String))
    (zoneOrder : List String) : Prop :=
  zoneOrder.Perm (keysOf dnsZoneMap) ∧
  (zoneOrder.map (fun zn => (splitDots zn).length)).Sorted (· ≥ ·)

instance {α : Type} [DecidableEq α] (l₁ l₂ : List α) : Decidable (l₁.Perm l₂) :=
  decidable_of_iff (l₁.isPerm l₂ = true) List.isPerm_iff

instance (m : List (String × List String)) (o : List String) :
    Decidable (validZoneOrder m o) := by
  unfold validZoneOrder
  infer_instance

/-- `buildGraph`, parameterized by the zone emission order (the one
implementation-defined ingredient). -/
def buildGraph (resources : ResourceCollection) (zoneOrder : List String) : Graph :=
  let st := buildNodesPhase resources
  let zst := zoneStateFinal resources
  let nodes := st.nodes.map (fun n =>
    match getKey? zst.nodePrimaryZone n.id with
    | some primaryZone => { n with dnsZone := primaryZone }
    | none => n)
  let allZones := zoneOrder.map (zoneInfoOf zst.dnsZoneMap)
  { nodes := nodes
    links := st.links ++ backendRefLinks resources.httpRoutes resources.services st.nodeMap
    dnsZones := emitZones allZones }

/-- The concrete collection refuting C5: one gateway with two listeners
whose hostnames both equal the DNSRecord's DNS name. -/
def collC5 : ResourceCollection :=
  { gatewayClasses := [], httpRoutes := [], referenceGrants := [], services := [],
    gateways := [
      { uid := "g", name := "gw", namespace' := "ns", gatewayClassName := "",
        listeners := [
          { name := "l0", port := 80, protocol := "HTTP",
            hostname := some "a.x.com", tls := false },
          { name := "l1", port := 443, protocol := "HTTPS",
            hostname := some "a.x.com", tls := true }] }],
    dnsRecords := [
      { uid := "d", name := "d", namespace' := "ns", dnsName := "a.x.com",
        gatewayLabel := some "gw" }] }

/-- The collection refuting C2's determinism: two DNS records whose
most specific zones (`a.x.com`, `a.y.com`) have equal depth, so the
unstable depth sort over the unordered zone map may emit them (and hence
assign colors) in either order. -/
def collC2 : ResourceCollection :=
  { gatewayClasses := [], gateways := [], httpRoutes := [],
    referenceGrants := [], services := [],
    dnsRecords := [
      { uid := "u1", name := "r1", namespace' := "ns", dnsName := "a.x.com",
        gatewayLabel := none },
      { uid := "u2", name := "r2", namespace' := "ns", dnsName := "a.y.com",
        gatewayLabel := none }] }

/-- The concrete zone slice for the C4 witness: member lists `["a"]`,
`["a"]`, `["a", "b"]` at depths 3, 2, 2 — the depth-2 singleton is
dropped in favor of the depth-3 singleton; the other two are
retained. -/
def zsC4 : List ZoneInfo :=
  [{ name := "a.x.com", nodeIDs := ["a"], depth := 3 },
   { name := "x.com", nodeIDs := ["a"], depth := 2 },
   { name := "y.com", nodeIDs := ["a", "b"], depth := 2 }]

/-- The lookup table and accumulator state for the C6 witness: one
DNSRecord `u1` with hostname `a.x.com` in zones `x.com`, `a.x.com` and
primary zone `x.com`. -/
def hostMapC6 : List (String × String) := [("a.x.com", "u1")]

def stC6 : ZoneState :=
  { dnsZoneMap := [("x.com", ["u1"]), ("a.x.com", ["u1"])]
    nodeZoneMap := [("u1", ["x.com", "a.x.com"])]
    nodePrimaryZone := [("u1", "x.com")] }

/-- The synthesized listener node ids of a gateway list. -/
def listenerIds (gws : List Gateway) : List String :=
  gws.flatMap (fun gw =>
    (List.range gw.listeners.length).map (fun i => listenerId gw.uid i))

/-- Every node id the zone passes can write: DNSRecord uids, HTTPRoute
uids, and synthesized listener ids. -/
def allZoneIds (c : ResourceCollection) : List String :=
  c.dnsRecords.map (fun d => d.uid) ++ c.httpRoutes.map (fun r => r.uid)
    ++ listenerIds c.gateways

/-- The collection refuting C9 as stated: the input resource ids
(`g`, `d1`, `g-listener-0`) are pairwise distinct, but the DNSRecord
with uid `g-listener-0` collides with the synthesized id of gateway
`g`'s listener 0, whose hostname matches record `d1` — so the listener
pass overwrites that record's primary zone. -/
def collC9 : ResourceCollection :=
  { gatewayClasses := [], httpRoutes := [], referenceGrants := [], services := [],
    gateways := [
      { uid := "g", name := "gw", namespace' := "ns", gatewayClassName := "",
        listeners := [{ name := "l0", port := 80, protocol := "HTTP",
                        hostname := some "a.x.com", tls := false }] }],
    dnsRecords := [
      { uid := "d1", name := "d1", namespace' := "ns", dnsName := "a.x.com",
        gatewayLabel := none },
      { uid := "g-listener-0", name := "d2", namespace' := "ns",
        dnsName := "a.y.com", gatewayLabel := none }] }

/-- The collection for the C9 witness: one DNSRecord, one HTTPRoute
inheriting from it, one gateway with a listener; all node ids
distinct. -/
def collC9w : ResourceCollection :=
  { gatewayClasses := [], referenceGrants := [], services := [],
    gateways := [
      { uid := "g", name := "gw", namespace' := "ns", gatewayClassName := "",
        listeners := [{ name := "l0", port := 80, protocol := "HTTP",
                        hostname := some "a.x.com", tls := false }] }],
    httpRoutes := [
      { uid := "r1", name := "rt", namespace' := "ns", parentRefs := [],
        hostnames := ["a.x.com"], rules := [] }],
    dnsRecords := [
      { uid := "u1", name := "d", namespace' := "ns", dnsName := "a.x.com",
        gatewayLabel := none }] }

/-- The invariant carried through the three zone passes: every zone's
member list is duplicate-free and drawn from the already-processed node
ids, and every per-node zone list is duplicate-free and belongs to a
processed id. -/
def ZoneInv (processed : List String) (st : ZoneState) : Prop :=
  (∀ zone ms, getKey? st.dnsZoneMap zone = some ms →
    ms.Nodup ∧ ∀ x ∈ ms, x ∈ processed)
  ∧ (∀ id zs, getKey? st.nodeZoneMap id = some zs → zs.Nodup)
  ∧ (∀ k, k ∈ keysOf st.nodeZoneMap → k ∈ processed)

/-- The collection refuting C10 as stated: input resource ids
(`g`, `g-listener-0`) are distinct, but the DNSRecord's uid collides
with the synthesized id of the gateway's listener 0, whose hostname
matches the record — so the listener pass appends the id a second
time. -/
def collC10 : ResourceCollection :=
  { gatewayClasses := [], httpRoutes := [], referenceGrants := [], services := [],
    gateways := [
      { uid := "g", name := "gw", namespace' := "ns", gatewayClassName := "",
        listeners := [{ name := "l0", port := 80, protocol := "HTTP",
                        hostname := some "a.x.com", tls := false }] }],
    dnsRecords := [
      { uid := "g-listener-0", name := "d", namespace' := "ns",
        dnsName := "a.x.com", gatewayLabel := none }] }

/-- The collection for the C10 witness: distinct node ids
throughout. -/
def collC10w : ResourceCollection :=
  { gatewayClasses := [], referenceGrants := [], services := [],
    gateways := [
      { uid := "g", name := "gw", namespace' := "ns", gatewayClassName := "",
        listeners := [{ name := "l0", port := 80, protocol := "HTTP",
                        hostname := some "a.x.com", tls := false }] }],
    httpRoutes := [
      { uid := "r1", name := "rt", namespace' := "ns", parentRefs := [],
        hostnames := ["a.x.com"], rules := [] }],
    dnsRecords := [
      { uid := "u1", name := "d", namespace' := "ns", dnsName := "a.x.com",
        gatewayLabel := none }] }

/-! ## Theorems -/

theorem splitChars_ne_nil (l : List Char) : splitChars l ≠ [] := by
  cases l with
  | nil => simp [splitChars]
  | cons c rest =>
    simp only [splitChars]
    split
    · simp
    · cases h : splitChars rest <;> simp

theorem splitDots_ne_nil (s : String) : splitDots s ≠ [] := by
  simp only [splitDots, ne_eq, List.map_eq_nil_iff]
  exact splitChars_ne_nil s.data

/-- No piece produced by `splitChars` contains the separator. -/
theorem not_mem_of_mem_splitChars (l : List Char) (p : List Char)
    (hp : p ∈ splitChars l) : '.' ∉ p := by
  induction l generalizing p with
  | nil => simp [splitChars] at hp; simp [hp]
  | cons c rest ih =>
    simp only [splitChars] at hp
    by_cases hc : c = '.'
    · simp [hc] at hp
      rcases hp with h | h
      · simp [h]
      · exact ih p h
    · simp [hc] at hp
      rcases hrest : splitChars rest with _ | ⟨q, qs⟩
      · exact absurd hrest (splitChars_ne_nil rest)
      · rw [hrest] at hp
        simp at hp
        rcases hp with h | h
        · subst h
          intro hmem
          rcases List.mem_cons.mp hmem with h | h
          · exact hc h.symm
          · exact ih q (by rw [hrest]; exact List.mem_cons_self q qs) h
        · exact ih p (by rw [hrest]; exact List.mem_cons_of_mem q h)

/-- Splitting and rejoining gives back the original character list. -/
theorem joinChars_splitChars (l : List Char) : joinChars (splitChars l) = l := by
  induction l with
  | nil => rfl
  | cons c rest ih =>
    simp only [splitChars]
    by_cases hc : c = '.'
    · subst hc
      simp only [if_pos rfl]
      rcases hrest : splitChars rest with _ | ⟨q, qs⟩
      · exact absurd hrest (splitChars_ne_nil rest)
      · rw [hrest] at ih
        simp [joinChars, ih]
    · rw [if_neg hc]
      rcases hrest : splitChars rest with _ | ⟨q, qs⟩
      · exact absurd hrest (splitChars_ne_nil rest)
      · rw [hrest] at ih
        cases qs with
        | nil => simpa [joinChars] using ih
        | cons q' qs' => simpa [joinChars] using ih

/-- A separator-free piece splits to itself. -/
theorem splitChars_noDot (p : List Char) (hp : '.' ∉ p) : splitChars p = [p] := by
  induction p with
  | nil => rfl
  | cons c cs ih =>
    have hc : c ≠ '.' := fun h => hp (by simp [h])
    have hcs : '.' ∉ cs := fun h => hp (List.mem_cons_of_mem c h)
    simp only [splitChars, if_neg hc, ih hcs]

/-- Splitting past a leading separator-free piece and one dot. -/
theorem splitChars_append_dot (p : List Char) (hp : '.' ∉ p) (rest : List Char) :
    splitChars (p ++ '.' :: rest) = p :: splitChars rest := by
  induction p with
  | nil => simp [splitChars]
  | cons c cs ih =>
    have hc : c ≠ '.' := fun h => hp (by simp [h])
    have hcs : '.' ∉ cs := fun h => hp (List.mem_cons_of_mem c h)
    simp only [List.cons_append, splitChars, if_neg hc, List.append_eq, ih hcs]

/-- Rejoining then splitting recovers the pieces, provided none contains
the separator. -/
theorem splitChars_joinChars (ps : List (List Char)) (hps : ps ≠ [])
    (hdot : ∀ p ∈ ps, '.' ∉ p) : splitChars (joinChars ps) = ps := by
  induction ps with
  | nil => exact absurd rfl hps
  | cons p ps ih =>
    cases ps with
    | nil => exact splitChars_noDot p (hdot p (by simp))
    | cons q qs =>
      have hrec : splitChars (joinChars (q :: qs)) = q :: qs :=
        ih (by simp) (fun r hr => hdot r (List.mem_cons_of_mem p hr))
      simp only [joinChars]
      rw [splitChars_append_dot p (hdot p (by simp)), hrec]

theorem joinDots_splitDots (s : String) : joinDots (splitDots s) = s := by
  simp only [joinDots, splitDots, List.map_map]
  rw [show (String.data ∘ fun cs => String.mk cs) = id from rfl, List.map_id,
    joinChars_splitChars]

theorem splitDots_joinDots (ps : List String) (hps : ps ≠ [])
    (hdot : ∀ p ∈ ps, '.' ∉ p.data) : splitDots (joinDots ps) = ps := by
  simp only [splitDots, joinDots]
  rw [splitChars_joinChars (ps.map String.data)
    (by simpa using hps)
    (by intro p hp
        rcases List.mem_map.mp hp with ⟨q, hq, rfl⟩
        exact hdot q hq)]
  simp only [List.map_map]
  rw [show ((fun cs => String.mk cs) ∘ String.data) = id by
    funext s; cases s; rfl, List.map_id]

theorem not_mem_of_mem_splitDots (s : String) (p : String)
    (hp : p ∈ splitDots s) : '.' ∉ p.data := by
  simp only [splitDots, List.mem_map] at hp
  rcases hp with ⟨cs, hcs, rfl⟩
  exact not_mem_of_mem_splitChars s.data cs hcs

theorem getKey?_setKey_self {α : Type} (m : List (String × α)) (k : String) (v : α) :
    getKey? (setKey m k v) k = some v := by
  induction m with
  | nil => simp [setKey, getKey?, List.find?]
  | cons kv rest ih =>
    obtain ⟨k', v'⟩ := kv
    simp only [setKey]
    by_cases h : k' = k
    · simp [h, getKey?, List.find?]
    · simp only [if_neg h, getKey?, List.find?]
      rw [show (decide (k' = k)) = false by simp [h]]
      exact ih

theorem getKey?_setKey_ne {α : Type} (m : List (String × α)) (k k' : String) (v : α)
    (h : k' ≠ k) : getKey? (setKey m k v) k' = getKey? m k' := by
  have h' : k ≠ k' := fun hh => h hh.symm
  induction m with
  | nil =>
    simp only [setKey, getKey?, List.find?]
    rw [show (decide (k = k')) = false by simp [h']]
  | cons kv rest ih =>
    obtain ⟨k0, v0⟩ := kv
    simp only [setKey]
    by_cases h0 : k0 = k
    · subst h0
      simp only [if_pos rfl, getKey?, List.find?]
      rw [show (decide (k0 = k')) = false by simp [h']]
    · simp only [if_neg h0, getKey?, List.find?] at ih ⊢
      by_cases h1 : k0 = k'
      · simp [h1]
      · rw [show (decide (k0 = k')) = false by simp [h1]]
        exact ih

theorem keysOf_setKey {α : Type} (m : List (String × α)) (k : String) (v : α) :
    keysOf (setKey m k v) = if k ∈ keysOf m then keysOf m else keysOf m ++ [k] := by
  induction m with
  | nil => simp [setKey, keysOf]
  | cons kv rest ih =>
    obtain ⟨k0, v0⟩ := kv
    by_cases h0 : k0 = k
    · subst h0
      simp [setKey, keysOf]
    · have hne : ¬(k = k0) := fun h => h0 h.symm
      simp only [setKey, if_neg h0, keysOf, List.map_cons] at ih ⊢
      rw [ih]
      by_cases hmem : k ∈ rest.map (fun kv => kv.1)
      · simp [hmem, hne]
      · simp [hmem, hne]

theorem getKey?_eq_none_of_not_mem_keys {α : Type} (m : List (String × α))
    (k : String) (h : k ∉ keysOf m) : getKey? m k = none := by
  induction m with
  | nil => simp [getKey?]
  | cons kv rest ih =>
    obtain ⟨k0, v0⟩ := kv
    simp only [keysOf, List.map_cons, List.mem_cons] at h
    push_neg at h
    simp only [getKey?, List.find?]
    rw [decide_eq_false (Ne.symm h.1)]
    exact ih h.2

theorem mem_keys_of_getKey?_eq_some {α : Type} (m : List (String × α))
    (k : String) (v : α) (h : getKey? m k = some v) : k ∈ keysOf m := by
  by_contra hmem
  rw [getKey?_eq_none_of_not_mem_keys m k hmem] at h
  exact Option.noConfusion h

/-- C1 (code bug in `extractHierarchicalZones`): the spec says the
extractor never emits the full original hostname for a generic-style
hostname, and that `zonesFor("api.example.com")` is exactly
`["example.com"]`.  The generic loop runs `i` from `len-2` down to `0`
and its guard `i < len(parts)-1` is always true, so at `i = 0` the full
hostname is emitted — contradicting the code's own comment
"Don't include the full hostname itself" and its doc-comment example.
This theorem evaluates the code at the failing input. -/
theorem extractHierarchicalZones_emits_full_hostname :
    extractHierarchicalZones "api.example.com"
        = ["example.com", "api.example.com"]
      ∧ "api.example.com" ∈ extractHierarchicalZones "api.example.com" := by
  constructor
  · decide
  · decide

/-- C3, counterexample: the claimed first zone
`"b.c.apps.cl.region.example.com"` (the suffix starting two labels
before `apps`) is not among the zones the code produces for
`"a.b.c.apps.cl.region.example.com"` — the OpenShift loop starts at
`appsIndex - 1`, one label before `apps`. -/
theorem zonesFor_openshift_not_six :
    "b.c.apps.cl.region.example.com"
      ∉ extractHierarchicalZones "a.b.c.apps.cl.region.example.com" := by
  decide

/-- C3, amended: `zonesFor("a.b.c.apps.cl.region.example.com")` (8
labels, `apps` at index 3) is exactly the five zones from the suffix
starting one label before `apps` down to `"example.com"`, in that
order. -/
theorem zonesFor_openshift_five_zones :
    extractHierarchicalZones "a.b.c.apps.cl.region.example.com"
      = ["c.apps.cl.region.example.com", "apps.cl.region.example.com",
         "cl.region.example.com", "region.example.com", "example.com"] := by
  decide

/-- `find?` over `enumFrom` hits the first matching index. -/
theorem find?_enumFrom_eq_some {α : Type} (l : List α) (n : Nat)
    (p : Nat × α → Bool) (i : Nat) (x : α)
    (hget : l[i]? = some x) (hp : p (n + i, x) = true)
    (hprev : ∀ j y, j < i → l[j]? = some y → p (n + j, y) = false) :
    (l.enumFrom n).find? p = some (n + i, x) := by
  induction l generalizing n i with
  | nil => simp at hget
  | cons a l ih =>
    cases i with
    | zero =>
      simp only [List.getElem?_cons_zero, Option.some.injEq] at hget
      subst hget
      have hp' : p (n, a) = true := by simpa using hp
      simp [List.enumFrom, List.find?, hp']
    | succ i' =>
      have hpa : p (n, a) = false := by
        have := hprev 0 a (Nat.succ_pos i') (by simp)
        simpa using this
      simp only [List.enumFrom, List.find?, hpa]
      have := ih (n + 1) i' (by simpa using hget)
        (by have : n + 1 + i' = n + (i' + 1) := by omega
            rw [this]; exact hp)
        (by intro j y hj hy
            have := hprev (j + 1) y (Nat.succ_lt_succ hj) (by simpa using hy)
            have harith : n + (j + 1) = n + 1 + j := by omega
            rw [harith] at this
            exact this)
      rw [show n + (i' + 1) = n + 1 + i' from by omega]
      exact this

/-- Every entry of `enumFrom n l` is the element at its (shifted)
index. -/
theorem get_of_mem_enumFrom {α : Type} (l : List α) (n : Nat)
    (pr : Nat × α) (h : pr ∈ l.enumFrom n) :
    n ≤ pr.1 ∧ l[pr.1 - n]? = some pr.2 := by
  induction l generalizing n with
  | nil => simp [List.enumFrom] at h
  | cons a l ih =>
    simp only [List.enumFrom, List.mem_cons] at h
    rcases h with h | h
    · subst h
      simp
    · have := ih (n + 1) h
      refine ⟨by omega, ?_⟩
      have h1 : pr.1 - n = (pr.1 - (n + 1)) + 1 := by omega
      rw [h1]
      simpa using this.2

/-- C5, counterexample: with two listeners matching the DNS name, the
claim requires a `dnsRecord` edge from the GatewayInstance (node 0);
the code instead emits it from the first matching Listener (node 1). -/
theorem dnsRecordLink_two_matching_listeners :
    (buildNodesPhase collC5).nodes.map (fun n => (n.id, n.type))
        = [("g", "Gateway"), ("g-listener-0", "Listener"),
           ("g-listener-1", "Listener"), ("d", "DNSRecord")]
      ∧ (buildNodesPhase collC5).links.filter (fun l => l.type = "dnsRecord")
        = [{ source := 1, target := 3, type := "dnsRecord" }] := by
  constructor
  · decide
  · decide

/-- C5, amended: for a DNSRecord whose gateway-name label resolves (to
the first GatewayInstance with that name in the record's namespace), if
at least one of that gateway's listeners has a hostname equal to the
record's DNS name (trailing dot stripped), one `dnsRecord` edge is
emitted from the FIRST such Listener node to the DNSRecord node;
if no listener matches, one `dnsRecord` edge is emitted from the
GatewayInstance node. -/
theorem dnsRecordLinks_first_match (dns : DNSRecord) (gws : List Gateway)
    (m : List (String × Nat)) (gname : String) (gw : Gateway)
    (hlabel : dns.gatewayLabel = some gname)
    (hfind : gws.find? (fun gw =>
        gw.name = gname && gw.namespace' = dns.namespace') = some gw)
    (hkeys : ∀ i, i < gw.listeners.length →
        (getKey? m (listenerId gw.uid i)).isSome) :
    (∀ (i : Nat) (li : ListenerSpec), gw.listeners[i]? = some li →
      li.hostname = some (stripTrailingDot dns.dnsName) →
      (∀ (j : Nat) (lj : ListenerSpec), j < i → gw.listeners[j]? = some lj →
        lj.hostname ≠ some (stripTrailingDot dns.dnsName)) →
      dnsRecordLinks dns gws m
        = [{ source := mapIdx m (listenerId gw.uid i)
             target := mapIdx m dns.uid, type := "dnsRecord" }])
    ∧ ((∀ (i : Nat) (li : ListenerSpec), gw.listeners[i]? = some li →
          li.hostname ≠ some (stripTrailingDot dns.dnsName)) →
        (getKey? m gw.uid).isSome →
        dnsRecordLinks dns gws m
          = [{ source := mapIdx m gw.uid
               target := mapIdx m dns.uid, type := "dnsRecord" }]) := by
  constructor
  · intro i li hget hmatch hprev
    simp only [dnsRecordLinks, hlabel, hfind]
    have hfound : (gw.listeners.enum.find? (fun il =>
        il.2.hostname = some (stripTrailingDot dns.dnsName)
          && (getKey? m (listenerId gw.uid il.1)).isSome)) = some (i, li) := by
      have := find?_enumFrom_eq_some gw.listeners 0
        (fun il => il.2.hostname = some (stripTrailingDot dns.dnsName)
          && (getKey? m (listenerId gw.uid il.1)).isSome) i li hget
        (by
          simp only [Nat.zero_add]
          have hi : i < gw.listeners.length := by
            by_contra hlt
            rw [List.getElem?_eq_none (by omega)] at hget
            exact Option.noConfusion hget
          have := hkeys i hi
          simp [hmatch, this])
        (by
          intro j y hj hy
          simp only [Nat.zero_add]
          have := hprev j y hj hy
          simp [this])
      simpa [List.enum] using this
    rw [hfound]
  · intro hnomatch hgwkey
    simp only [dnsRecordLinks, hlabel, hfind]
    have hnone : (gw.listeners.enum.find? (fun il =>
        il.2.hostname = some (stripTrailingDot dns.dnsName)
          && (getKey? m (listenerId gw.uid il.1)).isSome)) = none := by
      rw [List.find?_eq_none]
      intro pr hpr
      have hmem := get_of_mem_enumFrom gw.listeners 0 pr (by simpa [List.enum] using hpr)
      have := hnomatch pr.1 pr.2 (by simpa using hmem.2)
      simp [this]
    rw [hnone]
    simp [hgwkey]

/-- C5 amended theorem, witness: a concrete instantiation in which the
second listener (index 1) is the first match. -/
theorem dnsRecordLinks_first_match_witness :
    dnsRecordLinks
      { uid := "d", name := "d", namespace' := "ns", dnsName := "b.x.com.",
        gatewayLabel := some "gw" }
      [{ uid := "g", name := "gw", namespace' := "ns", gatewayClassName := "",
         listeners := [
           { name := "l0", port := 80, protocol := "HTTP",
             hostname := some "a.x.com", tls := false },
           { name := "l1", port := 443, protocol := "HTTPS",
             hostname := some "b.x.com", tls := true }] }]
      [("g", 0), ("g-listener-0", 1), ("g-listener-1", 2), ("d", 3)]
      = [{ source := 2, target := 3, type := "dnsRecord" }] := by
  exact ((dnsRecordLinks_first_match
      { uid := "d", name := "d", namespace' := "ns", dnsName := "b.x.com.",
        gatewayLabel := some "gw" }
      [{ uid := "g", name := "gw", namespace' := "ns", gatewayClassName := "",
         listeners := [
           { name := "l0", port := 80, protocol := "HTTP",
             hostname := some "a.x.com", tls := false },
           { name := "l1", port := 443, protocol := "HTTPS",
             hostname := some "b.x.com", tls := true }] }]
      [("g", 0), ("g-listener-0", 1), ("g-listener-1", 2), ("d", 3)]
      "gw"
      { uid := "g", name := "gw", namespace' := "ns", gatewayClassName := "",
        listeners := [
          { name := "l0", port := 80, protocol := "HTTP",
            hostname := some "a.x.com", tls := false },
          { name := "l1", port := 443, protocol := "HTTPS",
            hostname := some "b.x.com", tls := true }] }
      rfl (by decide)
      (by decide)).1 1
      { name := "l1", port := 443, protocol := "HTTPS",
        hostname := some "b.x.com", tls := true }
      (by decide) (by decide)
      (by intro j lj hj hget
          have hj0 : j = 0 := by omega
          subst hj0
          simp only [List.getElem?_cons_zero, Option.some.injEq] at hget
          subst hget
          decide))

/-- C7: for a parent reference with empty name, the `parentRef` edges a
route emits go to exactly those gateways whose namespace condition holds
(reference namespace unset, or equal to the route's namespace, or equal
to the gateway's namespace); with the namespace also unset, every
gateway in the collection is linked. -/
theorem routeParentLinks_empty_name (route : HTTPRoute) (gws : List Gateway)
    (m : List (String × Nat)) (pref : ParentRef) (hname : pref.name = "") :
    (∀ gw : Gateway, parentRefMatches pref route gw = true
      ↔ (pref.namespace' = none ∨ pref.namespace' = some route.namespace'
          ∨ pref.namespace' = some gw.namespace'))
    ∧ (route.parentRefs = [pref] →
        routeParentLinks route gws m
          = (gws.filter (fun gw =>
              decide (pref.namespace' = none
                ∨ pref.namespace' = some route.namespace'
                ∨ pref.namespace' = some gw.namespace'))).map (fun gw =>
            { source := mapIdx m gw.uid, target := mapIdx m route.uid
              type := "parentRef" }))
    ∧ (route.parentRefs = [pref] → pref.namespace' = none →
        routeParentLinks route gws m
          = gws.map (fun gw =>
            { source := mapIdx m gw.uid, target := mapIdx m route.uid
              type := "parentRef" })) := by
  have hiff : ∀ gw : Gateway, parentRefMatches pref route gw = true
      ↔ (pref.namespace' = none ∨ pref.namespace' = some route.namespace'
          ∨ pref.namespace' = some gw.namespace') := by
    intro gw
    simp [parentRefMatches, hname, or_assoc]
  refine ⟨hiff, ?_, ?_⟩
  · intro hpr
    simp only [routeParentLinks, hpr, List.flatMap_cons, List.flatMap_nil,
      List.append_nil]
    congr 1
    apply List.filter_congr
    intro gw _
    by_cases h : parentRefMatches pref route gw = true
    · rw [h]
      exact (decide_eq_true ((hiff gw).mp h)).symm
    · rw [Bool.not_eq_true] at h
      rw [h]
      symm
      rw [decide_eq_false_iff_not]
      intro hcond
      rw [(hiff gw).mpr hcond] at h
      exact Bool.noConfusion h
  · intro hpr hns
    simp only [routeParentLinks, hpr, List.flatMap_cons, List.flatMap_nil,
      List.append_nil]
    rw [List.filter_eq_self.mpr]
    intro gw _
    exact (hiff gw).mpr (Or.inl hns)

/-- C7 witness: a route with one empty-name, namespace-unset parent
reference links to both gateways of the collection. -/
theorem routeParentLinks_empty_name_witness :
    routeParentLinks
      { uid := "r", name := "rt", namespace' := "ns1",
        parentRefs := [{ name := "", namespace' := none }],
        hostnames := [], rules := [] }
      [{ uid := "ga", name := "gwa", namespace' := "ns1",
         gatewayClassName := "", listeners := [] },
       { uid := "gb", name := "gwb", namespace' := "ns2",
         gatewayClassName := "", listeners := [] }]
      [("ga", 0), ("gb", 1), ("r", 2)]
      = [{ source := 0, target := 2, type := "parentRef" },
         { source := 1, target := 2, type := "parentRef" }] := by
  have h := (routeParentLinks_empty_name
      { uid := "r", name := "rt", namespace' := "ns1",
        parentRefs := [{ name := "", namespace' := none }],
        hostnames := [], rules := [] }
      [{ uid := "ga", name := "gwa", namespace' := "ns1",
         gatewayClassName := "", listeners := [] },
       { uid := "gb", name := "gwb", namespace' := "ns2",
         gatewayClassName := "", listeners := [] }]
      [("ga", 0), ("gb", 1), ("r", 2)]
      { name := "", namespace' := none } rfl).2.2 rfl rfl
  rw [h]
  decide

/-- C2, counterexample: both orders are valid outcomes of Go's map
iteration plus the (unstable, depth-only) sort, yet the two snapshots
differ — the two surviving equal-depth zones swap positions and
colors.  So two invocations of `buildGraph` on this unchanged input are
not guaranteed identical snapshots. -/
theorem buildGraph_zone_order_dependent :
    validZoneOrder (zoneStateFinal collC2).dnsZoneMap
        ["a.x.com", "a.y.com", "x.com", "y.com"]
      ∧ validZoneOrder (zoneStateFinal collC2).dnsZoneMap
        ["a.y.com", "a.x.com", "x.com", "y.com"]
      ∧ buildGraph collC2 ["a.x.com", "a.y.com", "x.com", "y.com"]
        ≠ buildGraph collC2 ["a.y.com", "a.x.com", "x.com", "y.com"] := by
  refine ⟨by decide, by decide, by decide⟩

theorem any_of_perm {α : Type} {l₁ l₂ : List α} (h : l₁.Perm l₂)
    (p : α → Bool) : l₁.any p = l₂.any p := by
  cases hb : l₂.any p
  · rw [List.any_eq_false] at hb ⊢
    intro x hx
    exact hb x (h.mem_iff.mp hx)
  · rw [List.any_eq_true] at hb ⊢
    rcases hb with ⟨x, hx, hpx⟩
    exact ⟨x, h.mem_iff.mpr hx, hpx⟩

/-- The retention decision only depends on the zone slice up to
permutation. -/
theorem shouldCreateZone_perm {a1 a2 : List ZoneInfo} (h : a1.Perm a2)
    (z : ZoneInfo) : shouldCreateZone a1 z = shouldCreateZone a2 z := by
  simp only [shouldCreateZone]
  rw [any_of_perm h]

/-- Names and member lists of the emitted zones are the retained zones
of the slice, in slice order (colors aside). -/
theorem emitZones_name_nodes (zs all : List ZoneInfo) (acc : List DNSZoneOut)
    (n : Nat) :
    ((zs.foldl (emitZoneStep all) (acc, n)).1).map (fun z => (z.name, z.nodes))
      = acc.map (fun z => (z.name, z.nodes))
        ++ (zs.filter (shouldCreateZone all)).map (fun z => (z.name, z.nodeIDs)) := by
  induction zs generalizing acc n with
  | nil => simp
  | cons z zs ih =>
    simp only [List.foldl_cons, List.filter_cons]
    by_cases h : shouldCreateZone all z = true
    · rw [h]
      simp only [emitZoneStep, h, if_true]
      rw [ih]
      simp
    · rw [Bool.not_eq_true] at h
      rw [h]
      simp only [emitZoneStep, h, Bool.false_eq_true, if_false]
      rw [ih]

/-- C2, amended: the node and edge lists of two invocations on the same
input are always identical; the emitted zone collection agrees up to
order (same name/member-list pairs for any two valid zone emission
orders); and the full snapshot, colors included, is identical whenever
the two invocations enumerate the zone map in the same order.  What C2
additionally claimed — identical zone order and colors across arbitrary
invocations — fails (see the counterexample): the order of equal-depth
zones is implementation-defined. -/
theorem buildGraph_deterministic_up_to_zone_order
    (c : ResourceCollection) (o1 o2 : List String)
    (h1 : validZoneOrder (zoneStateFinal c).dnsZoneMap o1)
    (h2 : validZoneOrder (zoneStateFinal c).dnsZoneMap o2) :
    (buildGraph c o1).nodes = (buildGraph c o2).nodes
    ∧ (buildGraph c o1).links = (buildGraph c o2).links
    ∧ ((buildGraph c o1).dnsZones.map (fun z => (z.name, z.nodes))).Perm
        ((buildGraph c o2).dnsZones.map (fun z => (z.name, z.nodes)))
    ∧ (o1 = o2 → buildGraph c o1 = buildGraph c o2) := by
  refine ⟨rfl, rfl, ?_, fun h => by rw [h]⟩
  have hperm : o1.Perm o2 := h1.1.trans h2.1.symm
  have hmapperm : (o1.map (zoneInfoOf (zoneStateFinal c).dnsZoneMap)).Perm
      (o2.map (zoneInfoOf (zoneStateFinal c).dnsZoneMap)) := hperm.map _
  show ((emitZones (o1.map (zoneInfoOf (zoneStateFinal c).dnsZoneMap))).map
      (fun z => (z.name, z.nodes))).Perm
    ((emitZones (o2.map (zoneInfoOf (zoneStateFinal c).dnsZoneMap))).map
      (fun z => (z.name, z.nodes)))
  simp only [emitZones]
  rw [emitZones_name_nodes, emitZones_name_nodes]
  simp only [List.map_nil, List.nil_append]
  have hfcongr : (o2.map (zoneInfoOf (zoneStateFinal c).dnsZoneMap)).filter
      (shouldCreateZone (o2.map (zoneInfoOf (zoneStateFinal c).dnsZoneMap)))
      = (o2.map (zoneInfoOf (zoneStateFinal c).dnsZoneMap)).filter
      (shouldCreateZone (o1.map (zoneInfoOf (zoneStateFinal c).dnsZoneMap))) := by
    apply List.filter_congr
    intro z _
    exact (shouldCreateZone_perm hmapperm.symm z)
  rw [hfcongr]
  exact (hmapperm.filter _).map _

/-- C2 amended theorem, witness: the two orders of the counterexample
satisfy the validity hypotheses, and the theorem's conclusions evaluate
on them. -/
theorem buildGraph_deterministic_up_to_zone_order_witness :
    validZoneOrder (zoneStateFinal collC2).dnsZoneMap
        ["a.x.com", "a.y.com", "x.com", "y.com"]
      ∧ ((buildGraph collC2 ["a.x.com", "a.y.com", "x.com", "y.com"]).nodes
          = (buildGraph collC2 ["a.y.com", "a.x.com", "x.com", "y.com"]).nodes
        ∧ (buildGraph collC2 ["a.x.com", "a.y.com", "x.com", "y.com"]).links
          = (buildGraph collC2 ["a.y.com", "a.x.com", "x.com", "y.com"]).links
        ∧ ((buildGraph collC2 ["a.x.com", "a.y.com", "x.com", "y.com"]).dnsZones.map
            (fun z => (z.name, z.nodes))).Perm
          ((buildGraph collC2 ["a.y.com", "a.x.com", "x.com", "y.com"]).dnsZones.map
            (fun z => (z.name, z.nodes)))
        ∧ (["a.x.com", "a.y.com", "x.com", "y.com"]
              = ["a.y.com", "a.x.com", "x.com", "y.com"] →
            buildGraph collC2 ["a.x.com", "a.y.com", "x.com", "y.com"]
              = buildGraph collC2 ["a.y.com", "a.x.com", "x.com", "y.com"])) :=
  ⟨by decide,
   buildGraph_deterministic_up_to_zone_order collC2
     ["a.x.com", "a.y.com", "x.com", "y.com"]
     ["a.y.com", "a.x.com", "x.com", "y.com"] (by decide) (by decide)⟩

theorem mem_of_mem_dedupZonesAux (zs : List String) (seen : List String)
    (z : String) (h : z ∈ dedupZonesAux seen zs) :
    z ∈ zs ∧ z ≠ "" ∧ z ∉ seen := by
  induction zs generalizing seen with
  | nil => simp [dedupZonesAux] at h
  | cons z0 rest ih =>
    simp only [dedupZonesAux] at h
    by_cases hc : z0 ∉ seen ∧ z0 ≠ ""
    · rw [if_pos hc] at h
      rcases List.mem_cons.mp h with h | h
      · subst h
        exact ⟨List.mem_cons_self _ _, hc.2, hc.1⟩
      · have := ih (z0 :: seen) h
        exact ⟨List.mem_cons_of_mem _ this.1, this.2.1,
          fun hm => this.2.2 (List.mem_cons_of_mem _ hm)⟩
    · rw [if_neg hc] at h
      have := ih seen h
      exact ⟨List.mem_cons_of_mem _ this.1, this.2.1, this.2.2⟩

theorem dedupZonesAux_nodup (zs : List String) (seen : List String) :
    (dedupZonesAux seen zs).Nodup := by
  induction zs generalizing seen with
  | nil => simp [dedupZonesAux]
  | cons z0 rest ih =>
    simp only [dedupZonesAux]
    by_cases hc : z0 ∉ seen ∧ z0 ≠ ""
    · rw [if_pos hc]
      refine List.Nodup.cons ?_ (ih (z0 :: seen))
      intro hm
      exact (mem_of_mem_dedupZonesAux rest (z0 :: seen) z0 hm).2.2
        (List.mem_cons_self _ _)
    · rw [if_neg hc]
      exact ih seen

theorem mem_dedupZonesAux_of_mem (zs : List String) (seen : List String)
    (z : String) (hz : z ∈ zs) (hseen : z ∉ seen) (hne : z ≠ "") :
    z ∈ dedupZonesAux seen zs := by
  induction zs generalizing seen with
  | nil => simp at hz
  | cons z0 rest ih =>
    simp only [dedupZonesAux]
    rcases List.mem_cons.mp hz with h | h
    · subst h
      rw [if_pos ⟨hseen, hne⟩]
      exact List.mem_cons_self _ _
    · by_cases hc : z0 ∉ seen ∧ z0 ≠ ""
      · rw [if_pos hc]
        by_cases hzz : z = z0
        · subst hzz
          exact List.mem_cons_self _ _
        · exact List.mem_cons_of_mem _
            (ih (z0 :: seen) h (by
              intro hm
              rcases List.mem_cons.mp hm with hm | hm
              · exact hzz hm
              · exact hseen hm))
      · rw [if_neg hc]
        exact ih seen h hseen

theorem mem_drop_range (n m j : Nat) :
    j ∈ (List.range n).drop m ↔ m ≤ j ∧ j < n := by
  constructor
  · intro h
    constructor
    · rcases List.mem_iff_getElem?.mp h with ⟨k, hk⟩
      rw [List.getElem?_drop] at hk
      have hlt : m + k < n := by
        by_contra hge
        rw [List.getElem?_eq_none (by simpa [List.length_range] using hge)] at hk
        exact Option.noConfusion hk
      rw [List.getElem?_range hlt] at hk
      have : m + k = j := Option.some.injEq _ _ ▸ hk
      omega
    · exact List.mem_range.mp (List.mem_of_mem_drop h)
  · rintro ⟨hmj, hjn⟩
    apply List.mem_iff_getElem?.mpr
    refine ⟨j - m, ?_⟩
    rw [List.getElem?_drop]
    have : m + (j - m) = j := by omega
    rw [this, List.getElem?_range hjn]

/-- Joining two or more labels always contains a dot, hence is not the
empty string. -/
theorem joinDots_ne_empty (ps : List String) (h : 2 ≤ ps.length) :
    joinDots ps ≠ "" := by
  match ps, h with
  | p :: q :: t, _ =>
    intro hcontra
    have hdata := congrArg String.data hcontra
    simp only [joinDots, List.map_cons, joinChars] at hdata
    rcases List.append_eq_nil.mp hdata with ⟨_, h2⟩
    exact List.noConfusion h2

/-- Splitting a wildcard-prefixed hostname: the first label is `"*"` and
the rest splits the stripped remainder. -/
theorem splitDots_wildcard_cases (s : String) :
    stripWildcard s = s
    ∨ ∃ rest : List Char, s.data = '*' :: '.' :: rest
        ∧ stripWildcard s = String.mk rest
        ∧ splitDots s = "*" :: splitDots (String.mk rest) := by
  by_cases h : ∃ rest : List Char, s.data = '*' :: '.' :: rest
  · right
    rcases h with ⟨rest, hr⟩
    obtain ⟨d⟩ := s
    simp only [String.data] at hr
    subst hr
    refine ⟨rest, rfl, rfl, ?_⟩
    simp only [splitDots, splitChars]
    rw [if_neg (by decide), if_pos trivial]
    rfl
  · left
    simp only [stripWildcard]
    split
    · rename_i r heq
      exact absurd ⟨r, heq⟩ h
    · rfl

/-- An OpenShift-style label list has at least 6 labels and its first
`"apps"` label sits at an index strictly below `len - 3`. -/
theorem isOpenShiftStyleDomain_spec (parts : List String)
    (h : isOpenShiftStyleDomain parts = true) :
    6 ≤ parts.length
    ∧ ∃ i, parts.findIdx? (fun p => p = "apps") = some i
        ∧ i < parts.length - 3 := by
  simp only [isOpenShiftStyleDomain] at h
  split at h
  · exact Bool.noConfusion h
  · rename_i hlen
    push_neg at hlen
    rcases List.any_eq_true.mp h with ⟨ip, hip, hp⟩
    simp only [Bool.and_eq_true, decide_eq_true_eq] at hp
    obtain ⟨⟨happs, _⟩, hlt⟩ := hp
    have hget := get_of_mem_enumFrom parts 0 ip (by simpa [List.enum] using hip)
    have hmem : ip.2 ∈ parts := List.getElem?_mem (by simpa using hget.2)
    have hsome := @List.findIdx?_eq_some_of_exists String parts
      (fun p => decide (p = "apps")) ⟨ip.2, hmem, by simpa using happs⟩
    refine ⟨hlen, List.findIdx (fun p => decide (p = "apps")) parts, hsome, ?_⟩
    rcases List.findIdx?_eq_some_iff_getElem.mp hsome with ⟨hilen, _, hmin⟩
    by_contra hge
    push_neg at hge
    have hlt2 : ip.1 < List.findIdx (fun p => decide (p = "apps")) parts := by omega
    have := hmin ip.1 hlt2
    rw [List.getElem?_eq_getElem (by omega)] at hget
    have hgeteq : parts[ip.1 - 0] = ip.2 := Option.some.inj hget.2
    simp only [Nat.sub_zero] at hgeteq
    rw [hgeteq] at this
    simp [happs] at this

/-- Every branch of `extractDNSZone` returns the dot-join of a suffix of
the (internally re-stripped) label list; the suffix keeps at least two
labels whenever at least two are available. -/
theorem extractDNSZone_suffix (h : String) (hne : h ≠ "") :
    ∃ j, j < (splitDots (stripWildcard h)).length
      ∧ extractDNSZone h = joinDots ((splitDots (stripWildcard h)).drop j)
      ∧ (2 ≤ (splitDots (stripWildcard h)).length →
          2 ≤ ((splitDots (stripWildcard h)).drop j).length) := by
  have hlen_pos : 0 < (splitDots (stripWildcard h)).length :=
    List.length_pos.mpr (splitDots_ne_nil (stripWildcard h))
  simp only [extractDNSZone, if_neg hne]
  by_cases hsmall : (splitDots (stripWildcard h)).length < 2
  · rw [if_pos hsmall]
    exact ⟨0, hlen_pos,
      by rw [List.drop_zero, joinDots_splitDots],
      fun hh => absurd hh (by omega)⟩
  · rw [if_neg hsmall]
    push_neg at hsmall
    by_cases hos : isOpenShiftStyleDomain (splitDots (stripWildcard h)) = true
    · rw [if_pos hos]
      obtain ⟨hlen6, i, hfi, hi3⟩ := isOpenShiftStyleDomain_spec _ hos
      simp only [extractOpenShiftZone, hfi]
      by_cases hipos : 0 < i
      · rw [if_pos hipos]
        exact ⟨i - 1, by omega, rfl,
          fun _ => by rw [List.length_drop]; omega⟩
      · rw [if_neg hipos]
        exact ⟨0, hlen_pos, by rw [List.drop_zero],
          fun hh => by rw [List.drop_zero]; exact hh⟩
    · rw [if_neg hos]
      by_cases hci : isClusterInternalDomain (splitDots (stripWildcard h)) = true
      · rw [if_pos hci]
        have h3 : 3 ≤ (splitDots (stripWildcard h)).length := by
          by_contra hc
          simp only [isClusterInternalDomain] at hci
          rw [if_pos (by omega)] at hci
          exact Bool.noConfusion hci
        simp only [extractClusterInternalZone]
        by_cases hsvc : 4 ≤ (splitDots (stripWildcard h)).length
          ∧ (splitDots (stripWildcard h)).getD
              ((splitDots (stripWildcard h)).length - 4) "" = "svc"
        · rw [if_pos hsvc]
          exact ⟨(splitDots (stripWildcard h)).length - 4, by omega, rfl,
            fun _ => by rw [List.length_drop]; omega⟩
        · rw [if_neg hsvc]
          exact ⟨(splitDots (stripWildcard h)).length - 3, by omega, rfl,
            fun _ => by rw [List.length_drop]; omega⟩
      · rw [if_neg hci]
        by_cases h6 : 6 ≤ (splitDots (stripWildcard h)).length
        · rw [if_pos h6]
          exact ⟨(splitDots (stripWildcard h)).length - 4, by omega, rfl,
            fun _ => by rw [List.length_drop]; omega⟩
        · rw [if_neg h6]
          by_cases h4 : 4 ≤ (splitDots (stripWildcard h)).length
          · rw [if_pos h4]
            exact ⟨(splitDots (stripWildcard h)).length - 3, by omega, rfl,
              fun _ => by rw [List.length_drop]; omega⟩
          · rw [if_neg h4]
            exact ⟨(splitDots (stripWildcard h)).length - 2, by omega, rfl,
              fun _ => by rw [List.length_drop]; omega⟩

/-- `extractDNSZone` applied to an already-stripped hostname still
yields a dot-joined suffix of that hostname's label list (a second
leading `*.` costs one more label). -/
theorem extractDNSZone_suffix_outer (h1 : String) (hne : h1 ≠ "") :
    ∃ k, k < (splitDots h1).length
      ∧ extractDNSZone h1 = joinDots ((splitDots h1).drop k) := by
  obtain ⟨j, hj, hbeq, _⟩ := extractDNSZone_suffix h1 hne
  rcases splitDots_wildcard_cases h1 with hcase | ⟨rest, hdata, hstrip, hsplit⟩
  · rw [hcase] at hj hbeq
    exact ⟨j, hj, hbeq⟩
  · rw [hstrip] at hj hbeq
    rw [hsplit]
    exact ⟨j + 1, by simpa using Nat.succ_lt_succ hj, by
      rw [List.drop_succ_cons]; exact hbeq⟩

/-- `extractDNSZone` keeps at least two labels (hence is non-empty) when
the input has at least three. -/
theorem extractDNSZone_ne_empty (h1 : String) (hne : h1 ≠ "")
    (hlen : 3 ≤ (splitDots h1).length) : extractDNSZone h1 ≠ "" := by
  obtain ⟨j, hj, hbeq, hblen⟩ := extractDNSZone_suffix h1 hne
  have h2 : 2 ≤ (splitDots (stripWildcard h1)).length := by
    rcases splitDots_wildcard_cases h1 with hcase | ⟨rest, hdata, hstrip, hsplit⟩
    · rw [hcase]; omega
    · rw [hstrip]
      have := congrArg List.length hsplit
      simp only [List.length_cons] at this
      omega
  rw [hbeq]
  exact joinDots_ne_empty _ (hblen h2)

/-- Every raw hierarchical zone is the dot-join of a suffix of the label
list. -/
theorem mem_rawHierarchicalZones (parts : List String) (z : String)
    (hz : z ∈ rawHierarchicalZones parts) :
    ∃ k, k < parts.length ∧ z = joinDots (parts.drop k) := by
  simp only [rawHierarchicalZones] at hz
  split at hz
  · split at hz
    · rename_i appsIndex _
      split at hz
      · rcases List.mem_map.mp hz with ⟨i, hi, rfl⟩
        have := (mem_drop_range _ _ _).mp hi
        exact ⟨i, by omega, rfl⟩
      · simp at hz
    · simp at hz
  · rcases List.mem_map.mp hz with ⟨i, hi, rfl⟩
    have := List.mem_range.mp (List.mem_reverse.mp hi)
    exact ⟨i, by omega, rfl⟩

/-- C8: for every hostname with at least two labels after stripping a
leading `*.`, the hierarchical zone list is non-empty, duplicate-free,
and each entry is the dot-join of some suffix of the stripped hostname's
label sequence. -/
theorem zonesFor_nonempty_nodup_suffix (hostname : String)
    (hlen : 2 ≤ (splitDots (stripWildcard hostname)).length) :
    extractHierarchicalZones hostname ≠ []
    ∧ (extractHierarchicalZones hostname).Nodup
    ∧ ∀ z ∈ extractHierarchicalZones hostname,
        ∃ k, k < (splitDots (stripWildcard hostname)).length
          ∧ z = joinDots ((splitDots (stripWildcard hostname)).drop k) := by
  have hne : hostname ≠ "" := by
    intro h
    subst h
    exact absurd hlen (by decide)
  have hstrip_ne : stripWildcard hostname ≠ "" := by
    intro h
    rw [h] at hlen
    exact absurd hlen (by decide)
  have hunf : extractHierarchicalZones hostname =
      (if extractDNSZone (stripWildcard hostname)
            ∉ dedupZonesAux []
              (rawHierarchicalZones (splitDots (stripWildcard hostname)))
          ∧ extractDNSZone (stripWildcard hostname) ≠ "" then
        dedupZonesAux []
            (rawHierarchicalZones (splitDots (stripWildcard hostname)))
          ++ [extractDNSZone (stripWildcard hostname)]
      else dedupZonesAux []
        (rawHierarchicalZones (splitDots (stripWildcard hostname)))) := by
    simp only [extractHierarchicalZones, if_neg hne]
    rw [if_neg (by omega)]
  rw [hunf]
  have hnodup0 := dedupZonesAux_nodup
    (rawHierarchicalZones (splitDots (stripWildcard hostname))) []
  have hsuffix : ∀ z ∈ dedupZonesAux []
      (rawHierarchicalZones (splitDots (stripWildcard hostname))),
      ∃ k, k < (splitDots (stripWildcard hostname)).length
        ∧ z = joinDots ((splitDots (stripWildcard hostname)).drop k) := by
    intro z hz
    exact mem_rawHierarchicalZones _ z (mem_of_mem_dedupZonesAux _ _ z hz).1
  have hbasic := extractDNSZone_suffix_outer (stripWildcard hostname) hstrip_ne
  by_cases happ : extractDNSZone (stripWildcard hostname)
      ∉ dedupZonesAux []
        (rawHierarchicalZones (splitDots (stripWildcard hostname)))
      ∧ extractDNSZone (stripWildcard hostname) ≠ ""
  · rw [if_pos happ]
    refine ⟨by simp, ?_, ?_⟩
    · rw [List.nodup_append]
      exact ⟨hnodup0, List.nodup_singleton _, by
        intro a ha hmem
        rw [List.mem_singleton] at hmem
        subst hmem
        exact happ.1 ha⟩
    · intro z hz
      rcases List.mem_append.mp hz with hz | hz
      · exact hsuffix z hz
      · rw [List.mem_singleton] at hz
        subst hz
        exact hbasic
  · rw [if_neg happ]
    refine ⟨?_, hnodup0, hsuffix⟩
    -- Non-emptiness.  `happ` says the fallback zone is already present
    -- or empty.  If present, the list is non-empty.  The fallback is
    -- never empty with three or more labels; with exactly two labels
    -- the generic loop itself contributes the two-label suffix.
    rw [not_and_or, not_not, not_ne_iff] at happ
    rcases happ with hmem | hempty
    · intro hnil
      rw [hnil] at hmem
      simp at hmem
    · by_cases h3 : 3 ≤ (splitDots (stripWildcard hostname)).length
      · exact absurd hempty (extractDNSZone_ne_empty _ hstrip_ne h3)
      · have hos : isOpenShiftStyleDomain
            (splitDots (stripWildcard hostname)) = false := by
          rcases Bool.eq_false_or_eq_true
            (isOpenShiftStyleDomain (splitDots (stripWildcard hostname)))
            with h | h
          · obtain ⟨hlen6, _⟩ := isOpenShiftStyleDomain_spec _ h
            omega
          · exact h
        have hzmem : joinDots ((splitDots (stripWildcard hostname)).drop
            ((splitDots (stripWildcard hostname)).length - 2))
            ∈ rawHierarchicalZones (splitDots (stripWildcard hostname)) := by
          simp only [rawHierarchicalZones, hos, Bool.false_eq_true, if_false]
          exact List.mem_map.mpr
            ⟨(splitDots (stripWildcard hostname)).length - 2,
             List.mem_reverse.mpr (List.mem_range.mpr (by omega)), rfl⟩
        have hne2 : joinDots ((splitDots (stripWildcard hostname)).drop
            ((splitDots (stripWildcard hostname)).length - 2)) ≠ "" :=
          joinDots_ne_empty _ (by rw [List.length_drop]; omega)
        have hin := mem_dedupZonesAux_of_mem _ [] _ hzmem (by simp) hne2
        intro hnil
        rw [hnil] at hin
        simp at hin

/-- C8 witness: the theorem instantiated at a wildcard OpenShift-style
hostname. -/
theorem zonesFor_nonempty_nodup_suffix_witness :
    2 ≤ (splitDots (stripWildcard "*.gwapi.apps.cl.gcp.ci.example.org")).length
    ∧ (extractHierarchicalZones "*.gwapi.apps.cl.gcp.ci.example.org" ≠ []
      ∧ (extractHierarchicalZones "*.gwapi.apps.cl.gcp.ci.example.org").Nodup
      ∧ ∀ z ∈ extractHierarchicalZones "*.gwapi.apps.cl.gcp.ci.example.org",
          ∃ k, k < (splitDots
              (stripWildcard "*.gwapi.apps.cl.gcp.ci.example.org")).length
            ∧ z = joinDots ((splitDots
                (stripWildcard "*.gwapi.apps.cl.gcp.ci.example.org")).drop k)) :=
  ⟨by decide,
   zonesFor_nonempty_nodup_suffix "*.gwapi.apps.cl.gcp.ci.example.org" (by decide)⟩

/-- `slicesEqual` is exactly multiset equality (permutation). -/
theorem slicesEqual_iff_perm (a b : List String) :
    slicesEqual a b = true ↔ a.Perm b := by
  constructor
  · intro h
    simp only [slicesEqual] at h
    split at h
    · exact Bool.noConfusion h
    · rename_i hlen
      push_neg at hlen
      rw [List.all_eq_true] at h
      have hsub : a.Subperm b := by
        rw [List.subperm_ext_iff]
        intro x hx
        have := h x hx
        simp only [decide_eq_true_eq] at this
        omega
      exact hsub.perm_of_length_le (by omega)
  · intro h
    simp only [slicesEqual]
    rw [if_neg (by push_neg; exact h.length_eq)]
    rw [List.all_eq_true]
    intro x _
    simp only [decide_eq_true_eq]
    exact h.count_eq x

/-- Under `Nodup`, `slicesEqual` is exactly set equality. -/
theorem slicesEqual_iff_same_mem (a b : List String)
    (ha : a.Nodup) (hb : b.Nodup) :
    slicesEqual a b = true ↔ (∀ x, x ∈ a ↔ x ∈ b) := by
  rw [slicesEqual_iff_perm]
  exact List.perm_ext_iff_of_nodup ha hb

/-- A non-empty zone slice has a deepest element. -/
theorem exists_max_depth (zs : List ZoneInfo) (hne : zs ≠ []) :
    ∃ m ∈ zs, ∀ w ∈ zs, w.depth ≤ m.depth := by
  induction zs with
  | nil => exact absurd rfl hne
  | cons a l ih =>
    cases l with
    | nil =>
      exact ⟨a, List.mem_cons_self _ _, by
        intro w hw
        rw [List.mem_singleton] at hw
        subst hw
        exact le_refl _⟩
    | cons b t =>
      obtain ⟨m, hm, hmax⟩ := ih (by simp)
      by_cases hcmp : a.depth ≤ m.depth
      · refine ⟨m, List.mem_cons_of_mem _ hm, ?_⟩
        intro w hw
        rcases List.mem_cons.mp hw with rfl | hw
        · exact hcmp
        · exact hmax w hw
      · refine ⟨a, List.mem_cons_self _ _, ?_⟩
        intro w hw
        rcases List.mem_cons.mp hw with rfl | hw
        · exact le_refl _
        · exact le_trans (hmax w hw) (by omega)

/-- The code's retention test, unfolded: a zone is dropped exactly when
some strictly deeper zone of the slice has a multiset-equal member
list. -/
theorem shouldCreateZone_eq_false_iff (zs : List ZoneInfo) (z : ZoneInfo) :
    shouldCreateZone zs z = false ↔
      ∃ w ∈ zs, z.depth < w.depth ∧ slicesEqual w.nodeIDs z.nodeIDs = true := by
  simp only [shouldCreateZone, Bool.not_eq_false', List.any_eq_true,
    Bool.and_eq_true, decide_eq_true_eq]
  constructor
  · rintro ⟨w, hw, ⟨⟨hd, _⟩, hs⟩⟩
    exact ⟨w, hw, hd, hs⟩
  · rintro ⟨w, hw, hd, hs⟩
    refine ⟨w, hw, ⟨⟨hd, ?_⟩, hs⟩⟩
    have := (slicesEqual_iff_perm _ _).mp hs
    simpa using this.length_eq

/-- C4: in the pruning pass (zone depths being the label counts of
their names and member lists duplicate-free), a zone is dropped iff some
retained zone is strictly deeper with an identical member set; and no
two retained zones have identical member sets at different depths. -/
theorem pruning_pass_characterization (zs : List ZoneInfo)
    (hd : ∀ z ∈ zs, z.depth = (splitDots z.name).length)
    (hnd : ∀ z ∈ zs, z.nodeIDs.Nodup) :
    (∀ z ∈ zs, (shouldCreateZone zs z = false ↔
      ∃ z' ∈ zs, shouldCreateZone zs z' = true ∧ z.depth < z'.depth
        ∧ (∀ x, x ∈ z'.nodeIDs ↔ x ∈ z.nodeIDs)))
    ∧ (∀ z1 ∈ zs, ∀ z2 ∈ zs, shouldCreateZone zs z1 = true →
        shouldCreateZone zs z2 = true →
        (∀ x, x ∈ z1.nodeIDs ↔ x ∈ z2.nodeIDs) → z1.depth = z2.depth) := by
  have hdrop : ∀ z ∈ zs, shouldCreateZone zs z = false →
      ∃ z' ∈ zs, shouldCreateZone zs z' = true ∧ z.depth < z'.depth
        ∧ slicesEqual z'.nodeIDs z.nodeIDs = true := by
    intro z hz hfalse
    rcases (shouldCreateZone_eq_false_iff zs z).mp hfalse with ⟨w, hw, hwd, hws⟩
    obtain ⟨m, hmS, hmax⟩ := exists_max_depth
      (zs.filter (fun v => slicesEqual v.nodeIDs z.nodeIDs)) (by
        intro hnil
        have : w ∈ zs.filter (fun v => slicesEqual v.nodeIDs z.nodeIDs) :=
          List.mem_filter.mpr ⟨hw, hws⟩
        rw [hnil] at this
        simp at this)
    have hmmem := List.mem_filter.mp hmS
    have hmeq : slicesEqual m.nodeIDs z.nodeIDs = true := hmmem.2
    have hmdepth : z.depth < m.depth :=
      lt_of_lt_of_le hwd (hmax w (List.mem_filter.mpr ⟨hw, hws⟩))
    refine ⟨m, hmmem.1, ?_, hmdepth, hmeq⟩
    by_contra hmfalse
    rw [Bool.not_eq_true] at hmfalse
    rcases (shouldCreateZone_eq_false_iff zs m).mp hmfalse with ⟨v, hv, hvd, hvs⟩
    have hvz : slicesEqual v.nodeIDs z.nodeIDs = true := by
      rw [slicesEqual_iff_perm] at hvs hmeq ⊢
      exact hvs.trans hmeq
    have := hmax v (List.mem_filter.mpr ⟨hv, hvz⟩)
    omega
  constructor
  · intro z hz
    constructor
    · intro hfalse
      rcases hdrop z hz hfalse with ⟨z', hz', hkeep, hdepth, hs⟩
      exact ⟨z', hz', hkeep, hdepth,
        (slicesEqual_iff_same_mem _ _ (hnd z' hz') (hnd z hz)).mp hs⟩
    · rintro ⟨z', hz', _, hdepth, hs⟩
      rw [shouldCreateZone_eq_false_iff]
      exact ⟨z', hz', hdepth,
        (slicesEqual_iff_same_mem _ _ (hnd z' hz') (hnd z hz)).mpr hs⟩
  · intro z1 hz1 z2 hz2 hk1 hk2 hsame
    rcases Nat.lt_trichotomy z1.depth z2.depth with hlt | heq | hgt
    · exfalso
      have : shouldCreateZone zs z1 = false := by
        rw [shouldCreateZone_eq_false_iff]
        exact ⟨z2, hz2, hlt,
          (slicesEqual_iff_same_mem _ _ (hnd z2 hz2) (hnd z1 hz1)).mpr
            (fun x => (hsame x).symm)⟩
      rw [hk1] at this
      exact Bool.noConfusion this
    · exact heq
    · exfalso
      have : shouldCreateZone zs z2 = false := by
        rw [shouldCreateZone_eq_false_iff]
        exact ⟨z1, hz1, hgt,
          (slicesEqual_iff_same_mem _ _ (hnd z1 hz1) (hnd z2 hz2)).mpr hsame⟩
      rw [hk2] at this
      exact Bool.noConfusion this

/-- C4 witness: the pruning characterization instantiated at `zsC4`. -/
theorem pruning_pass_characterization_witness :
    (∀ z ∈ zsC4, z.depth = (splitDots z.name).length)
    ∧ (∀ z ∈ zsC4, z.nodeIDs.Nodup)
    ∧ ((∀ z ∈ zsC4, (shouldCreateZone zsC4 z = false ↔
          ∃ z' ∈ zsC4, shouldCreateZone zsC4 z' = true ∧ z.depth < z'.depth
            ∧ (∀ x, x ∈ z'.nodeIDs ↔ x ∈ z.nodeIDs)))
      ∧ (∀ z1 ∈ zsC4, ∀ z2 ∈ zsC4, shouldCreateZone zsC4 z1 = true →
          shouldCreateZone zsC4 z2 = true →
          (∀ x, x ∈ z1.nodeIDs ↔ x ∈ z2.nodeIDs) → z1.depth = z2.depth)) :=
  ⟨by decide, by decide,
   pruning_pass_characterization zsC4 (by decide) (by decide)⟩

theorem addToZones_cons (st : ZoneState) (id z0 : String)
    (rest : List String) :
    addToZones st id (z0 :: rest)
      = addToZones
          { dnsZoneMap := appendKey st.dnsZoneMap z0 id
            nodeZoneMap := appendKey st.nodeZoneMap id z0
            nodePrimaryZone := st.nodePrimaryZone } id rest := by
  simp only [addToZones, List.foldl_cons]

theorem addToZones_nodePrimaryZone (st : ZoneState) (id : String)
    (zones : List String) :
    (addToZones st id zones).nodePrimaryZone = st.nodePrimaryZone := by
  induction zones generalizing st with
  | nil => rfl
  | cons z0 rest ih =>
    simp only [addToZones, List.foldl_cons]
    exact ih _

theorem addToZones_nodeZoneMap_getD (st : ZoneState) (id : String)
    (zones : List String) :
    (getKey? (addToZones st id zones).nodeZoneMap id).getD []
      = (getKey? st.nodeZoneMap id).getD [] ++ zones := by
  induction zones generalizing st with
  | nil => simp [addToZones]
  | cons z0 rest ih =>
    simp only [addToZones, List.foldl_cons] at ih ⊢
    rw [ih]
    simp only [appendKey, getKey?_setKey_self, Option.getD_some]
    rw [List.append_assoc]
    rfl

theorem addToZones_nodeZoneMap_ne (st : ZoneState) (id : String)
    (zones : List String) (k : String) (hk : k ≠ id) :
    getKey? (addToZones st id zones).nodeZoneMap k
      = getKey? st.nodeZoneMap k := by
  induction zones generalizing st with
  | nil => rfl
  | cons z0 rest ih =>
    simp only [addToZones, List.foldl_cons] at ih ⊢
    rw [ih]
    simp only [appendKey]
    exact getKey?_setKey_ne _ _ _ _ hk

theorem addToZones_dnsZoneMap_not_mem (st : ZoneState) (id : String)
    (zones : List String) (z : String) (hz : z ∉ zones) :
    getKey? (addToZones st id zones).dnsZoneMap z
      = getKey? st.dnsZoneMap z := by
  induction zones generalizing st with
  | nil => rfl
  | cons z0 rest ih =>
    have hz0 : z ≠ z0 := fun h => hz (h ▸ List.mem_cons_self _ _)
    have hzrest : z ∉ rest := fun h => hz (List.mem_cons_of_mem _ h)
    simp only [addToZones, List.foldl_cons] at ih ⊢
    rw [ih _ hzrest]
    simp only [appendKey]
    exact getKey?_setKey_ne _ _ _ _ hz0

theorem addToZones_dnsZoneMap_mem (st : ZoneState) (id : String)
    (zones : List String) (z : String) (hnd : zones.Nodup) (hz : z ∈ zones) :
    getKey? (addToZones st id zones).dnsZoneMap z
      = some ((getKey? st.dnsZoneMap z).getD [] ++ [id]) := by
  induction zones generalizing st with
  | nil => simp at hz
  | cons z0 rest ih =>
    rw [addToZones_cons]
    rcases List.mem_cons.mp hz with rfl | hzrest
    · have hznotrest : z ∉ rest := (List.nodup_cons.mp hnd).1
      rw [addToZones_dnsZoneMap_not_mem _ _ _ _ hznotrest]
      simp only [appendKey, getKey?_setKey_self]
    · have hz0 : z ≠ z0 := by
        intro h
        subst h
        exact (List.nodup_cons.mp hnd).1 hzrest
      rw [ih _ (List.nodup_cons.mp hnd).2 hzrest]
      simp only [appendKey]
      rw [getKey?_setKey_ne _ _ _ _ hz0]

/-- Hostnames yielding no assignment leave the scan running with the
same state. -/
theorem routeHostLoop_skip (hostMap : List (String × String)) (routeID : String)
    (st : ZoneState) (pre l : List String)
    (hpre : ∀ h' ∈ pre, zoneAssignStep hostMap st routeID h' = none) :
    routeHostLoop hostMap routeID st (pre ++ l)
      = routeHostLoop hostMap routeID st l := by
  induction pre with
  | nil => rfl
  | cons h' pre ih =>
    simp only [List.cons_append, routeHostLoop]
    rw [hpre h' (List.mem_cons_self _ _)]
    exact ih (fun x hx => hpre x (List.mem_cons_of_mem _ hx))

/-- The inheritance branch of `zoneAssignStep`, unfolded. -/
theorem zoneAssignStep_inherit (hostMap : List (String × String))
    (st : ZoneState) (id h u : String) (zs : List String)
    (hmatch : getKey? hostMap h = some u)
    (hzones : getKey? st.nodeZoneMap u = some zs) :
    zoneAssignStep hostMap st id h
      = some (match getKey? (addToZones st id zs).nodePrimaryZone u with
          | some primaryZone =>
            { addToZones st id zs with
              nodePrimaryZone :=
                setKey (addToZones st id zs).nodePrimaryZone id primaryZone }
          | none => addToZones st id zs) := by
  simp only [zoneAssignStep, hmatch, hzones]

/-- C6: when the first hostname of a route that yields any zone
assignment exactly matches a DNSRecord's DNS name (`hostMap` hit `u`
whose zone list is `zs`), the route inherits exactly that record's zone
list and primary zone — it is appended to exactly the zones of `zs`,
its zone list becomes `zs` verbatim, its primary zone becomes the
record's — and the remaining hostnames are never processed. -/
theorem route_inherits_dns_zones (hostMap : List (String × String))
    (st : ZoneState) (routeID : String) (pre rest : List String)
    (h u : String) (zs : List String)
    (hpre : ∀ h' ∈ pre, zoneAssignStep hostMap st routeID h' = none)
    (hmatch : getKey? hostMap h = some u)
    (hzones : getKey? st.nodeZoneMap u = some zs)
    (hfresh : getKey? st.nodeZoneMap routeID = none)
    (hfreshp : getKey? st.nodePrimaryZone routeID = none)
    (hznodup : zs.Nodup) :
    routeHostLoop hostMap routeID st (pre ++ h :: rest)
      = routeHostLoop hostMap routeID st (pre ++ [h])
    ∧ (getKey? (routeHostLoop hostMap routeID st
        (pre ++ h :: rest)).nodeZoneMap routeID).getD [] = zs
    ∧ getKey? (routeHostLoop hostMap routeID st
        (pre ++ h :: rest)).nodePrimaryZone routeID
      = getKey? st.nodePrimaryZone u
    ∧ (∀ z, z ∉ zs →
        getKey? (routeHostLoop hostMap routeID st
          (pre ++ h :: rest)).dnsZoneMap z = getKey? st.dnsZoneMap z)
    ∧ (∀ z ∈ zs,
        getKey? (routeHostLoop hostMap routeID st
          (pre ++ h :: rest)).dnsZoneMap z
        = some ((getKey? st.dnsZoneMap z).getD [] ++ [routeID])) := by
  have hstep := zoneAssignStep_inherit hostMap st routeID h u zs hmatch hzones
  have hloop : ∀ l : List String,
      routeHostLoop hostMap routeID st (pre ++ h :: l)
        = (match getKey? (addToZones st routeID zs).nodePrimaryZone u with
            | some primaryZone =>
              { addToZones st routeID zs with
                nodePrimaryZone :=
                  setKey (addToZones st routeID zs).nodePrimaryZone routeID
                    primaryZone }
            | none => addToZones st routeID zs) := by
    intro l
    rw [routeHostLoop_skip hostMap routeID st pre (h :: l) hpre]
    simp only [routeHostLoop, hstep]
  have hprim : (addToZones st routeID zs).nodePrimaryZone
      = st.nodePrimaryZone := addToZones_nodePrimaryZone st routeID zs
  have hzonemaps :
      (match getKey? (addToZones st routeID zs).nodePrimaryZone u with
        | some primaryZone =>
          { addToZones st routeID zs with
            nodePrimaryZone :=
              setKey (addToZones st routeID zs).nodePrimaryZone routeID
                primaryZone }
        | none => addToZones st routeID zs).nodeZoneMap
      = (addToZones st routeID zs).nodeZoneMap := by
    cases hcase : getKey? (addToZones st routeID zs).nodePrimaryZone u <;> rfl
  have hdnsmaps :
      (match getKey? (addToZones st routeID zs).nodePrimaryZone u with
        | some primaryZone =>
          { addToZones st routeID zs with
            nodePrimaryZone :=
              setKey (addToZones st routeID zs).nodePrimaryZone routeID
                primaryZone }
        | none => addToZones st routeID zs).dnsZoneMap
      = (addToZones st routeID zs).dnsZoneMap := by
    cases hcase : getKey? (addToZones st routeID zs).nodePrimaryZone u <;> rfl
  refine ⟨by rw [hloop rest, hloop []], ?_, ?_, ?_, ?_⟩
  · rw [hloop rest, hzonemaps, addToZones_nodeZoneMap_getD, hfresh]
    rfl
  · rw [hloop rest]
    rw [hprim]
    cases hcase : getKey? st.nodePrimaryZone u with
    | some pz =>
      simp only [hcase]
      rw [getKey?_setKey_self]
    | none =>
      simp only [hcase]
      rw [hprim, hfreshp]
  · intro z hz
    rw [hloop rest, hdnsmaps]
    exact addToZones_dnsZoneMap_not_mem st routeID zs z hz
  · intro z hz
    rw [hloop rest, hdnsmaps]
    exact addToZones_dnsZoneMap_mem st routeID zs z hznodup hz

/-- C6 witness: a route whose second hostname (the first yielding any
assignment) matches the record inherits its zones and primary zone and
ignores the remaining hostname. -/
theorem route_inherits_dns_zones_witness :
    routeHostLoop hostMapC6 "r1" stC6 ([""] ++ "a.x.com" :: ["z.example.com"])
      = routeHostLoop hostMapC6 "r1" stC6 ([""] ++ ["a.x.com"])
    ∧ (getKey? (routeHostLoop hostMapC6 "r1" stC6
        ([""] ++ "a.x.com" :: ["z.example.com"])).nodeZoneMap "r1").getD []
      = ["x.com", "a.x.com"]
    ∧ getKey? (routeHostLoop hostMapC6 "r1" stC6
        ([""] ++ "a.x.com" :: ["z.example.com"])).nodePrimaryZone "r1"
      = getKey? stC6.nodePrimaryZone "u1"
    ∧ (∀ z, z ∉ ["x.com", "a.x.com"] →
        getKey? (routeHostLoop hostMapC6 "r1" stC6
          ([""] ++ "a.x.com" :: ["z.example.com"])).dnsZoneMap z
        = getKey? stC6.dnsZoneMap z)
    ∧ (∀ z ∈ ["x.com", "a.x.com"],
        getKey? (routeHostLoop hostMapC6 "r1" stC6
          ([""] ++ "a.x.com" :: ["z.example.com"])).dnsZoneMap z
        = some ((getKey? stC6.dnsZoneMap z).getD [] ++ ["r1"])) :=
  route_inherits_dns_zones hostMapC6 stC6 "r1" [""] ["z.example.com"]
    "a.x.com" "u1" ["x.com", "a.x.com"]
    (by decide) (by decide) (by decide) (by decide) (by decide) (by decide)

theorem getKey?_isSome_of_mem_keys {α : Type} (m : List (String × α))
    (k : String) (h : k ∈ keysOf m) : (getKey? m k).isSome := by
  induction m with
  | nil => simp [keysOf] at h
  | cons kv rest ih =>
    obtain ⟨k0, v0⟩ := kv
    by_cases h0 : k0 = k
    · subst h0
      simp [getKey?, List.find?]
    · simp only [keysOf, List.map_cons, List.mem_cons] at h
      rcases h with h | h
      · exact absurd h.symm h0
      · simp only [getKey?, List.find?]
        rw [show (decide (k0 = k)) = false by simp [h0]]
        exact ih h

/-- A single hostname assignment writes the primary-zone map only at its
own node id. -/
theorem zoneAssignStep_primary_ne (hostMap : List (String × String))
    (st : ZoneState) (id h : String) (st' : ZoneState)
    (hstep : zoneAssignStep hostMap st id h = some st')
    (k : String) (hk : k ≠ id) :
    getKey? st'.nodePrimaryZone k = getKey? st.nodePrimaryZone k := by
  simp only [zoneAssignStep] at hstep
  split at hstep
  · rename_i u hu
    rw [Option.some.injEq] at hstep
    subst hstep
    split at hu
    · rename_i dnsUID hmap
      split at hu
      · rename_i dnsZones hzs
        rw [Option.some.injEq] at hu
        subst hu
        split
        · simp only [addToZones_nodePrimaryZone]
          exact getKey?_setKey_ne _ _ _ _ hk
        · rw [addToZones_nodePrimaryZone]
      · exact Option.noConfusion hu
    · exact Option.noConfusion hu
  · split at hstep
    · exact Option.noConfusion hstep
    · rename_i z0 zs _
      rw [Option.some.injEq] at hstep
      subst hstep
      split
      · simp only [addToZones_nodePrimaryZone]
        exact getKey?_setKey_ne _ _ _ _ hk
      · rw [addToZones_nodePrimaryZone]

/-- The route hostname scan writes the primary-zone map only at the
route's id. -/
theorem routeHostLoop_primary_ne (hostMap : List (String × String))
    (rid : String) (st : ZoneState) (hostnames : List String)
    (k : String) (hk : k ≠ rid) :
    getKey? (routeHostLoop hostMap rid st hostnames).nodePrimaryZone k
      = getKey? st.nodePrimaryZone k := by
  induction hostnames generalizing st with
  | nil => rfl
  | cons h rest ih =>
    simp only [routeHostLoop]
    cases hstep : zoneAssignStep hostMap st rid h with
    | some st' => exact zoneAssignStep_primary_ne hostMap st rid h st' hstep k hk
    | none => exact ih st

theorem routeZonePass_cons (hostMap : List (String × String)) (st : ZoneState)
    (route : HTTPRoute) (rest : List HTTPRoute) :
    routeZonePass hostMap st (route :: rest)
      = routeZonePass hostMap
          (routeHostLoop hostMap route.uid st route.hostnames) rest := by
  simp only [routeZonePass, List.foldl_cons]

/-- The route pass writes the primary-zone map only at route ids. -/
theorem routeZonePass_primary_ne (hostMap : List (String × String))
    (st : ZoneState) (routes : List HTTPRoute) (k : String)
    (hk : k ∉ routes.map (fun r => r.uid)) :
    getKey? (routeZonePass hostMap st routes).nodePrimaryZone k
      = getKey? st.nodePrimaryZone k := by
  induction routes generalizing st with
  | nil => rfl
  | cons route rest ih =>
    simp only [List.map_cons, List.mem_cons] at hk
    push_neg at hk
    rw [routeZonePass_cons, ih _ hk.2,
      routeHostLoop_primary_ne hostMap route.uid st route.hostnames k hk.1]

/-- One listener fold writes the primary-zone map only at that
gateway's listener ids. -/
theorem listenerFold_primary_ne (hostMap : List (String × String))
    (uid : String) (ils : List (Nat × ListenerSpec)) (st : ZoneState)
    (k : String) (hk : ∀ il ∈ ils, k ≠ listenerId uid il.1) :
    getKey? ((ils.foldl (listenerZoneStep hostMap uid) st)).nodePrimaryZone k
      = getKey? st.nodePrimaryZone k := by
  induction ils generalizing st with
  | nil => rfl
  | cons il rest ih =>
    simp only [List.foldl_cons]
    rw [ih _ (fun x hx => hk x (List.mem_cons_of_mem _ hx))]
    simp only [listenerZoneStep]
    cases il.2.hostname with
    | none => rfl
    | some hs =>
      simp only
      cases hstep : zoneAssignStep hostMap st (listenerId uid il.1) hs with
      | some st' =>
        exact zoneAssignStep_primary_ne hostMap st _ hs st' hstep k
          (hk il (List.mem_cons_self _ _))
      | none => rfl

theorem listenerIds_cons (gw : Gateway) (rest : List Gateway) :
    listenerIds (gw :: rest)
      = (List.range gw.listeners.length).map (fun i => listenerId gw.uid i)
        ++ listenerIds rest := by
  simp [listenerIds]

/-- The listener pass writes the primary-zone map only at listener
ids. -/
theorem listenerZonePass_primary_ne (hostMap : List (String × String))
    (st : ZoneState) (gws : List Gateway) (k : String)
    (hk : k ∉ listenerIds gws) :
    getKey? (listenerZonePass hostMap st gws).nodePrimaryZone k
      = getKey? st.nodePrimaryZone k := by
  induction gws generalizing st with
  | nil => rfl
  | cons gw rest ih =>
    rw [listenerIds_cons] at hk
    simp only [List.mem_append] at hk
    push_neg at hk
    simp only [listenerZonePass, List.foldl_cons]
    rw [show (List.foldl (fun st gw =>
        gw.listeners.enum.foldl (listenerZoneStep hostMap gw.uid) st)
        (gw.listeners.enum.foldl (listenerZoneStep hostMap gw.uid) st) rest)
      = listenerZonePass hostMap
          (gw.listeners.enum.foldl (listenerZoneStep hostMap gw.uid) st) rest
      from rfl]
    rw [ih _ hk.2]
    apply listenerFold_primary_ne
    intro il hil
    intro heq
    apply hk.1
    rw [heq]
    apply List.mem_map.mpr
    refine ⟨il.1, List.mem_range.mpr ?_, rfl⟩
    have := get_of_mem_enumFrom gw.listeners 0 il (by simpa [List.enum] using hil)
    have h2 := this.2
    by_contra hge
    rw [List.getElem?_eq_none (by omega)] at h2
    exact Option.noConfusion h2

/-- One DNSRecord step writes the primary-zone map only at that
record's uid. -/
theorem dnsZoneStep_primary_ne (acc : List (String × String) × ZoneState)
    (d : DNSRecord) (k : String) (hk : k ≠ d.uid) :
    getKey? (dnsZoneStep acc d).2.nodePrimaryZone k
      = getKey? acc.2.nodePrimaryZone k := by
  obtain ⟨hostMap, st⟩ := acc
  simp only [dnsZoneStep]
  split
  · split
    · rfl
    · simp only [addToZones_nodePrimaryZone]
      exact getKey?_setKey_ne _ _ _ _ hk
  · rfl

theorem dnsFold_primary_ne (dnss : List DNSRecord)
    (acc : List (String × String) × ZoneState) (k : String)
    (hk : k ∉ dnss.map (fun d => d.uid)) :
    getKey? ((dnss.foldl dnsZoneStep acc).2.nodePrimaryZone) k
      = getKey? acc.2.nodePrimaryZone k := by
  induction dnss generalizing acc with
  | nil => rfl
  | cons d rest ih =>
    simp only [List.map_cons, List.mem_cons] at hk
    push_neg at hk
    simp only [List.foldl_cons]
    rw [ih _ hk.2, dnsZoneStep_primary_ne acc d k hk.1]

/-- After the DNS pass, a record whose hostname yields zones holds the
first (most specific, in emission order) zone as its primary, provided
no later record shares its uid. -/
theorem dnsFold_record_primary (pre : List DNSRecord) (d : DNSRecord)
    (post : List DNSRecord) (acc : List (String × String) × ZoneState)
    (hpost : d.uid ∉ post.map (fun d => d.uid))
    (z0 : String) (zs : List String)
    (hz : extractHierarchicalZones (stripTrailingDot d.dnsName) = z0 :: zs) :
    getKey? (((pre ++ d :: post).foldl dnsZoneStep acc).2.nodePrimaryZone) d.uid
      = some z0 := by
  rw [List.foldl_append, List.foldl_cons]
  rw [dnsFold_primary_ne post _ d.uid hpost]
  set acc' := pre.foldl dnsZoneStep acc
  obtain ⟨hostMap, st⟩ := acc'
  have hne : stripTrailingDot d.dnsName ≠ "" := by
    intro hcontra
    rw [hcontra] at hz
    simp [extractHierarchicalZones] at hz
  simp only [dnsZoneStep, if_pos hne, hz]
  simp only [addToZones_nodePrimaryZone]
  exact getKey?_setKey_self _ _ _

/-- The DNS pass records primaries only at the processed uids. -/
theorem dnsFold_primary_keys (dnss : List DNSRecord)
    (acc : List (String × String) × ZoneState) (k : String)
    (h : k ∈ keysOf ((dnss.foldl dnsZoneStep acc).2.nodePrimaryZone)) :
    k ∈ keysOf acc.2.nodePrimaryZone ∨ k ∈ dnss.map (fun d => d.uid) := by
  induction dnss generalizing acc with
  | nil => exact Or.inl h
  | cons d rest ih =>
    simp only [List.foldl_cons] at h
    rcases ih (dnsZoneStep acc d) h with h | h
    · by_cases hk : k = d.uid
      · exact Or.inr (by simp [hk])
      · left
        obtain ⟨hostMap, st⟩ := acc
        simp only [dnsZoneStep] at h
        split at h
        · split at h
          · exact h
          · simp only [addToZones_nodePrimaryZone, keysOf_setKey] at h
            split at h
            · exact h
            · rcases List.mem_append.mp h with h | h
              · exact h
              · rw [List.mem_singleton] at h
                exact absurd h hk
        · exact h
    · exact Or.inr (List.mem_cons_of_mem _ h)

/-- Fold-preservation of "every emitted node has an empty `dnsZone`". -/
theorem nodes_prop_foldl {β : Type} (step : NodesState → β → NodesState)
    (hstep : ∀ st b, (∀ n ∈ st.nodes, n.dnsZone = "") →
      ∀ n ∈ (step st b).nodes, n.dnsZone = "")
    (l : List β) (st : NodesState)
    (hst : ∀ n ∈ st.nodes, n.dnsZone = "") :
    ∀ n ∈ (l.foldl step st).nodes, n.dnsZone = "" := by
  induction l generalizing st with
  | nil => exact hst
  | cons b rest ih => exact ih _ (hstep st b hst)

theorem push_dnsZone (st : NodesState) (node : Node)
    (hst : ∀ n ∈ st.nodes, n.dnsZone = "") (hnode : node.dnsZone = "") :
    ∀ n ∈ (st.push node).nodes, n.dnsZone = "" := by
  intro n hn
  simp only [NodesState.push] at hn
  rcases List.mem_append.mp hn with h | h
  · exact hst n h
  · rw [List.mem_singleton] at h
    subst h
    exact hnode

theorem addGatewayClassNodes_dnsZone (st : NodesState) (gcs : List GatewayClass)
    (hst : ∀ n ∈ st.nodes, n.dnsZone = "") :
    ∀ n ∈ (addGatewayClassNodes st gcs).nodes, n.dnsZone = "" :=
  nodes_prop_foldl _ (fun st gc hst => push_dnsZone st _ hst rfl) gcs st hst

theorem addGatewayNodes_dnsZone (st : NodesState) (gcs : List GatewayClass)
    (gws : List Gateway) (hst : ∀ n ∈ st.nodes, n.dnsZone = "") :
    ∀ n ∈ (addGatewayNodes st gcs gws).nodes, n.dnsZone = "" := by
  apply nodes_prop_foldl _ _ gws st hst
  intro st gw hst0 n hn
  simp only at hn
  have base := push_dnsZone st
    { id := gw.uid, name := gw.name, type := "Gateway"
      namespace' := gw.namespace', group := "gateway.networking.k8s.io"
      version := "v1", kind := "Gateway" }
    hst0 rfl
  have hfold := nodes_prop_foldl
    (fun (st1 : NodesState) (il : Nat × ListenerSpec) =>
      let st2 := st1.push (mkListenerNode gw il.1 il.2)
      { st2 with links := st2.links ++
          [{ source := mapIdx st2.nodeMap gw.uid
             target := mapIdx st2.nodeMap (listenerId gw.uid il.1)
             type := "listener" }] })
    (fun st1 il h1 => by
      intro n hn2
      exact push_dnsZone st1 (mkListenerNode gw il.1 il.2) h1 rfl n hn2)
    gw.listeners.enum _ base
  revert hn
  split
  · split
    · intro hn
      exact hfold n hn
    · intro hn
      exact hfold n hn
  · intro hn
    exact hfold n hn

theorem addHTTPRouteNodes_dnsZone (st : NodesState) (gws : List Gateway)
    (routes : List HTTPRoute) (hst : ∀ n ∈ st.nodes, n.dnsZone = "") :
    ∀ n ∈ (addHTTPRouteNodes st gws routes).nodes, n.dnsZone = "" := by
  apply nodes_prop_foldl _ _ routes st hst
  intro st route hst0 n hn
  exact push_dnsZone st _ hst0 rfl n hn

theorem addReferenceGrantNodes_dnsZone (st : NodesState)
    (grants : List ReferenceGrant) (hst : ∀ n ∈ st.nodes, n.dnsZone = "") :
    ∀ n ∈ (addReferenceGrantNodes st grants).nodes, n.dnsZone = "" :=
  nodes_prop_foldl _ (fun st g hst => push_dnsZone st _ hst rfl) grants st hst

theorem addDNSRecordNodes_dnsZone (st : NodesState) (gws : List Gateway)
    (dnss : List DNSRecord) (hst : ∀ n ∈ st.nodes, n.dnsZone = "") :
    ∀ n ∈ (addDNSRecordNodes st gws dnss).nodes, n.dnsZone = "" := by
  apply nodes_prop_foldl _ _ dnss st hst
  intro st dns hst0 n hn
  exact push_dnsZone st _ hst0 rfl n hn

theorem addServiceNodes_dnsZone (st : NodesState) (svcs : List Service)
    (hst : ∀ n ∈ st.nodes, n.dnsZone = "") :
    ∀ n ∈ (addServiceNodes st svcs).nodes, n.dnsZone = "" :=
  nodes_prop_foldl _ (fun st s hst => push_dnsZone st _ hst rfl) svcs st hst

/-- Every node the build emits starts with an empty `dnsZone` field
(it is only filled by the final primary-zone write-back). -/
theorem buildNodesPhase_dnsZone_empty (c : ResourceCollection) :
    ∀ n ∈ (buildNodesPhase c).nodes, n.dnsZone = "" := by
  simp only [buildNodesPhase]
  exact addServiceNodes_dnsZone _ _
    (addDNSRecordNodes_dnsZone _ _ _
      (addReferenceGrantNodes_dnsZone _ _
        (addHTTPRouteNodes_dnsZone _ _ _
          (addGatewayNodes_dnsZone _ _ _
            (addGatewayClassNodes_dnsZone _ _ (by simp))))))

theorem zoneStateFinal_eq (c : ResourceCollection) :
    zoneStateFinal c
      = listenerZonePass (dnsZonePass c.dnsRecords).1
          (routeZonePass (dnsZonePass c.dnsRecords).1
            (dnsZonePass c.dnsRecords).2 c.httpRoutes)
          c.gateways := rfl

theorem routeZonePass_primary_keys (hostMap : List (String × String))
    (st : ZoneState) (routes : List HTTPRoute) (k : String)
    (h : k ∈ keysOf (routeZonePass hostMap st routes).nodePrimaryZone) :
    k ∈ keysOf st.nodePrimaryZone ∨ k ∈ routes.map (fun r => r.uid) := by
  by_cases h1 : k ∈ routes.map (fun r => r.uid)
  · exact Or.inr h1
  · left
    have hsome := getKey?_isSome_of_mem_keys _ _ h
    rw [routeZonePass_primary_ne hostMap st routes k h1] at hsome
    rcases Option.isSome_iff_exists.mp hsome with ⟨v, hv⟩
    exact mem_keys_of_getKey?_eq_some _ _ _ hv

/-- C9, counterexample: all input resource ids are pairwise distinct,
the DnsRecord pass records primary zone `y.com` for node id
`g-listener-0`, yet the listener pass later overwrites it to `x.com` —
the primary zone of a node id is not write-once under the claim's
stated hypothesis. -/
theorem primary_zone_overwritten_collision :
    (["g", "d1", "g-listener-0"] : List String).Nodup
    ∧ getKey? (dnsZonePass collC9.dnsRecords).2.nodePrimaryZone "g-listener-0"
      = some "y.com"
    ∧ getKey? (zoneStateFinal collC9).nodePrimaryZone "g-listener-0"
      = some "x.com" := by
  refine ⟨by decide, by decide, by decide⟩

/-- C9, amended: with ALL node ids pairwise distinct — input resource
ids together with the synthesized listener ids — primary zones are
write-once: (1) each DNSRecord's primary after the DNS pass is the head
of its own zone list; (2) any primary recorded by the DNS pass survives
the route and listener passes unchanged; (3) any primary recorded by the
route pass survives the listener pass unchanged; (4) the DNSZone field
finally written onto each node is exactly its entry in the final
primary-zone map (empty if none). -/
theorem primary_zone_write_once (c : ResourceCollection)
    (hids : (allZoneIds c).Nodup) :
    (∀ pre d post, c.dnsRecords = pre ++ d :: post →
      ∀ z0 zs, extractHierarchicalZones (stripTrailingDot d.dnsName) = z0 :: zs →
      getKey? (dnsZonePass c.dnsRecords).2.nodePrimaryZone d.uid = some z0)
    ∧ (∀ id v,
        getKey? (dnsZonePass c.dnsRecords).2.nodePrimaryZone id = some v →
        getKey? (zoneStateFinal c).nodePrimaryZone id = some v)
    ∧ (∀ id v,
        getKey? (routeZonePass (dnsZonePass c.dnsRecords).1
          (dnsZonePass c.dnsRecords).2 c.httpRoutes).nodePrimaryZone id = some v →
        getKey? (zoneStateFinal c).nodePrimaryZone id = some v)
    ∧ (∀ o : List String, ∀ n ∈ (buildGraph c o).nodes,
        n.dnsZone = (getKey? (zoneStateFinal c).nodePrimaryZone n.id).getD "") := by
  have hdnsnodup : (c.dnsRecords.map (fun d => d.uid)).Nodup :=
    ((hids.of_append_left).of_append_left)
  have hdisj1 : ∀ id, id ∈ c.dnsRecords.map (fun d => d.uid) →
      id ∉ c.httpRoutes.map (fun r => r.uid) := by
    intro id hid
    exact (List.disjoint_of_nodup_append hids.of_append_left) hid
  have hdisj2 : ∀ id, id ∈ c.dnsRecords.map (fun d => d.uid)
        ∨ id ∈ c.httpRoutes.map (fun r => r.uid) →
      id ∉ listenerIds c.gateways := by
    intro id hid
    exact (List.disjoint_of_nodup_append hids)
      (List.mem_append.mpr hid)
  have hdnskeys : ∀ id v,
      getKey? (dnsZonePass c.dnsRecords).2.nodePrimaryZone id = some v →
      id ∈ c.dnsRecords.map (fun d => d.uid) := by
    intro id v hv
    have hkeys := mem_keys_of_getKey?_eq_some _ _ _ hv
    rcases dnsFold_primary_keys c.dnsRecords _ id hkeys with h | h
    · simp [keysOf] at h
    · exact h
  refine ⟨?_, ?_, ?_, ?_⟩
  · intro pre d post hdec z0 zs hz
    have hpost : d.uid ∉ post.map (fun d => d.uid) := by
      rw [hdec] at hdnsnodup
      simp only [List.map_append, List.map_cons] at hdnsnodup
      have := hdnsnodup.of_append_right
      exact (List.nodup_cons.mp this).1
    rw [show dnsZonePass c.dnsRecords
        = (pre ++ d :: post).foldl dnsZoneStep
            ([], { dnsZoneMap := [], nodeZoneMap := [], nodePrimaryZone := [] })
      from by rw [← hdec]; rfl]
    exact dnsFold_record_primary pre d post _ hpost z0 zs hz
  · intro id v hv
    have hdns := hdnskeys id v hv
    rw [zoneStateFinal_eq]
    rw [listenerZonePass_primary_ne _ _ _ id (hdisj2 id (Or.inl hdns))]
    rw [routeZonePass_primary_ne _ _ _ id (hdisj1 id hdns)]
    exact hv
  · intro id v hv
    have hkeys := mem_keys_of_getKey?_eq_some _ _ _ hv
    have hsrc := routeZonePass_primary_keys _ _ _ id hkeys
    have hnotlst : id ∉ listenerIds c.gateways := by
      apply hdisj2
      rcases hsrc with h | h
      · left
        have hsome := getKey?_isSome_of_mem_keys _ _ h
        rcases Option.isSome_iff_exists.mp hsome with ⟨w, hw⟩
        exact hdnskeys id w hw
      · exact Or.inr h
    rw [zoneStateFinal_eq]
    rw [listenerZonePass_primary_ne _ _ _ id hnotlst]
    exact hv
  · intro o n hn
    simp only [buildGraph] at hn
    rcases List.mem_map.mp hn with ⟨n0, hn0, rfl⟩
    cases hcase : getKey? (zoneStateFinal c).nodePrimaryZone n0.id with
    | some pz =>
      simp only [hcase]
      rfl
    | none =>
      simp only [hcase]
      rw [Option.getD_none]
      exact buildNodesPhase_dnsZone_empty c n0 hn0

/-- C9 amended theorem, witness: the write-once property instantiated
at `collC9w`. -/
theorem primary_zone_write_once_witness :
    (allZoneIds collC9w).Nodup
    ∧ ((∀ pre d post, collC9w.dnsRecords = pre ++ d :: post →
        ∀ z0 zs,
          extractHierarchicalZones (stripTrailingDot d.dnsName) = z0 :: zs →
        getKey? (dnsZonePass collC9w.dnsRecords).2.nodePrimaryZone d.uid
          = some z0)
      ∧ (∀ id v,
          getKey? (dnsZonePass collC9w.dnsRecords).2.nodePrimaryZone id = some v →
          getKey? (zoneStateFinal collC9w).nodePrimaryZone id = some v)
      ∧ (∀ id v,
          getKey? (routeZonePass (dnsZonePass collC9w.dnsRecords).1
            (dnsZonePass collC9w.dnsRecords).2
            collC9w.httpRoutes).nodePrimaryZone id = some v →
          getKey? (zoneStateFinal collC9w).nodePrimaryZone id = some v)
      ∧ (∀ o : List String, ∀ n ∈ (buildGraph collC9w o).nodes,
          n.dnsZone
            = (getKey? (zoneStateFinal collC9w).nodePrimaryZone n.id).getD "")) :=
  ⟨by decide, primary_zone_write_once collC9w (by decide)⟩

/-- The hierarchical zone list of any hostname is duplicate-free (the
dedup loop keeps first occurrences; the fallback is only appended when
absent). -/
theorem extractHierarchicalZones_nodup (hostname : String) :
    (extractHierarchicalZones hostname).Nodup := by
  by_cases hne : hostname = ""
  · subst hne
    simp [extractHierarchicalZones]
  · simp only [extractHierarchicalZones, if_neg hne]
    by_cases hsmall : (splitDots (stripWildcard hostname)).length < 2
    · rw [if_pos hsmall]
      exact List.nodup_singleton _
    · rw [if_neg hsmall]
      by_cases happ : extractDNSZone (stripWildcard hostname)
          ∉ dedupZonesAux []
            (rawHierarchicalZones (splitDots (stripWildcard hostname)))
          ∧ extractDNSZone (stripWildcard hostname) ≠ ""
      · rw [if_pos happ]
        rw [List.nodup_append]
        exact ⟨dedupZonesAux_nodup _ _, List.nodup_singleton _, by
          intro a ha hmem
          rw [List.mem_singleton] at hmem
          subst hmem
          exact happ.1 ha⟩
      · rw [if_neg happ]
        exact dedupZonesAux_nodup _ _

theorem ZoneInv_mono (p p' : List String) (st : ZoneState)
    (h : ZoneInv p st) (hsub : ∀ x ∈ p, x ∈ p') : ZoneInv p' st :=
  ⟨fun zone ms hms => ⟨(h.1 zone ms hms).1,
      fun x hx => hsub x ((h.1 zone ms hms).2 x hx)⟩,
   h.2.1,
   fun k hk => hsub k (h.2.2 k hk)⟩

theorem ZoneInv_init : ZoneInv []
    { dnsZoneMap := [], nodeZoneMap := [], nodePrimaryZone := [] } := by
  refine ⟨?_, ?_, ?_⟩
  · intro zone ms h
    simp [getKey?] at h
  · intro id zs h
    simp [getKey?] at h
  · intro k hk
    simp [keysOf] at hk

/-- Adding a fresh id to a duplicate-free batch of zones preserves the
invariant. -/
theorem ZoneInv_addToZones (p : List String) (st : ZoneState) (id : String)
    (zones : List String) (hinv : ZoneInv p st) (hid : id ∉ p)
    (hzn : zones.Nodup) :
    ZoneInv (p ++ [id]) (addToZones st id zones) := by
  refine ⟨?_, ?_, ?_⟩
  · intro zone ms hms
    by_cases hz : zone ∈ zones
    · rw [addToZones_dnsZoneMap_mem st id zones zone hzn hz] at hms
      rw [Option.some.injEq] at hms
      subst hms
      cases hold : getKey? st.dnsZoneMap zone with
      | some ms0 =>
        have hprev := hinv.1 zone ms0 hold
        simp only [Option.getD_some]
        constructor
        · rw [List.nodup_append]
          exact ⟨hprev.1, List.nodup_singleton _, by
            intro a ha hmem
            rw [List.mem_singleton] at hmem
            subst hmem
            exact hid (hprev.2 a ha)⟩
        · intro x hx
          rcases List.mem_append.mp hx with hx | hx
          · exact List.mem_append.mpr (Or.inl (hprev.2 x hx))
          · rw [List.mem_singleton] at hx
            subst hx
            exact List.mem_append.mpr (Or.inr (by simp))
      | none =>
        simp only [Option.getD_none, List.nil_append]
        exact ⟨List.nodup_singleton _, by
          intro x hx
          rw [List.mem_singleton] at hx
          subst hx
          exact List.mem_append.mpr (Or.inr (by simp))⟩
    · rw [addToZones_dnsZoneMap_not_mem st id zones zone hz] at hms
      have hprev := hinv.1 zone ms hms
      exact ⟨hprev.1, fun x hx => List.mem_append.mpr (Or.inl (hprev.2 x hx))⟩
  · intro k zs hzs
    by_cases hk : k = id
    · subst hk
      have hnone : getKey? st.nodeZoneMap k = none := by
        by_contra hsome
        rcases Option.ne_none_iff_exists'.mp hsome with ⟨v, hv⟩
        exact hid (hinv.2.2 k (mem_keys_of_getKey?_eq_some _ _ _ hv))
      have hgetd := addToZones_nodeZoneMap_getD st k zones
      rw [hzs, hnone] at hgetd
      simp only [Option.getD_some, Option.getD_none, List.nil_append] at hgetd
      rw [hgetd]
      exact hzn
    · rw [addToZones_nodeZoneMap_ne st id zones k hk] at hzs
      exact hinv.2.1 k zs hzs
  · intro k hk
    by_cases hkid : k = id
    · subst hkid
      exact List.mem_append.mpr (Or.inr (by simp))
    · have hsome := getKey?_isSome_of_mem_keys _ _ hk
      rw [addToZones_nodeZoneMap_ne st id zones k hkid] at hsome
      rcases Option.isSome_iff_exists.mp hsome with ⟨v, hv⟩
      exact List.mem_append.mpr
        (Or.inl (hinv.2.2 k (mem_keys_of_getKey?_eq_some _ _ _ hv)))

/-- A successful hostname assignment for a fresh id preserves the
invariant (the inherited or freshly-extracted zone batch is
duplicate-free). -/
theorem ZoneInv_zoneAssignStep (hostMap : List (String × String))
    (p : List String) (st : ZoneState) (id h : String) (st' : ZoneState)
    (hinv : ZoneInv p st) (hid : id ∉ p)
    (hstep : zoneAssignStep hostMap st id h = some st') :
    ZoneInv (p ++ [id]) st' := by
  have hsame : ∀ st2 : ZoneState, ∀ pz : String,
      ZoneInv (p ++ [id]) st2 →
      ZoneInv (p ++ [id])
        { st2 with nodePrimaryZone := setKey st2.nodePrimaryZone id pz } :=
    fun st2 pz hi => ⟨hi.1, hi.2.1, hi.2.2⟩
  simp only [zoneAssignStep] at hstep
  split at hstep
  · rename_i u hu
    rw [Option.some.injEq] at hstep
    subst hstep
    split at hu
    · rename_i dnsUID hmap
      split at hu
      · rename_i dnsZones hzs
        rw [Option.some.injEq] at hu
        subst hu
        have hbase := ZoneInv_addToZones p st id dnsZones hinv hid
          (hinv.2.1 dnsUID dnsZones hzs)
        split
        · exact hsame _ _ hbase
        · exact hbase
      · exact Option.noConfusion hu
    · exact Option.noConfusion hu
  · split at hstep
    · exact Option.noConfusion hstep
    · rename_i z0 zs hzlist
      rw [Option.some.injEq] at hstep
      subst hstep
      have hnodup : (z0 :: zs).Nodup := by
        rw [← hzlist]
        exact extractHierarchicalZones_nodup h
      have hbase := ZoneInv_addToZones p st id (z0 :: zs) hinv hid hnodup
      split
      · exact hsame _ _ hbase
      · exact hbase

/-- The DNS pass preserves the invariant, processing each record's
uid. -/
theorem ZoneInv_dnsFold (dnss : List DNSRecord)
    (acc : List (String × String) × ZoneState) (p : List String)
    (hinv : ZoneInv p acc.2)
    (hnd : (p ++ dnss.map (fun d => d.uid)).Nodup) :
    ZoneInv (p ++ dnss.map (fun d => d.uid)) ((dnss.foldl dnsZoneStep acc).2) := by
  induction dnss generalizing acc p with
  | nil =>
    simp only [List.map_nil, List.append_nil, List.foldl_nil]
    exact hinv
  | cons d rest ih =>
    simp only [List.map_cons, List.foldl_cons]
    rw [List.append_cons]
    have hd_fresh : d.uid ∉ p := by
      simp only [List.map_cons] at hnd
      rw [List.append_cons] at hnd
      have := List.disjoint_of_nodup_append hnd.of_append_left
      intro hmem
      exact this hmem (by simp)
    have hstep : ZoneInv (p ++ [d.uid]) (dnsZoneStep acc d).2 := by
      obtain ⟨hostMap, st⟩ := acc
      simp only [dnsZoneStep]
      split
      · split
        · exact ZoneInv_mono p _ _ hinv
            (fun x hx => List.mem_append.mpr (Or.inl hx))
        · rename_i z0 zs hzlist
          have hnodup : (z0 :: zs).Nodup := by
            rw [← hzlist]
            exact extractHierarchicalZones_nodup _
          exact ⟨(ZoneInv_addToZones p st d.uid (z0 :: zs) hinv hd_fresh hnodup).1,
            (ZoneInv_addToZones p st d.uid (z0 :: zs) hinv hd_fresh hnodup).2.1,
            (ZoneInv_addToZones p st d.uid (z0 :: zs) hinv hd_fresh hnodup).2.2⟩
      · exact ZoneInv_mono p _ _ hinv
          (fun x hx => List.mem_append.mpr (Or.inl hx))
    apply ih (dnsZoneStep acc d) (p ++ [d.uid]) hstep
    simp only [List.map_cons] at hnd
    rw [List.append_cons] at hnd
    exact hnd

/-- The route hostname scan preserves the invariant for a fresh route
id. -/
theorem ZoneInv_routeHostLoop (hostMap : List (String × String))
    (rid : String) (st : ZoneState) (hostnames : List String)
    (p : List String) (hinv : ZoneInv p st) (hid : rid ∉ p) :
    ZoneInv (p ++ [rid]) (routeHostLoop hostMap rid st hostnames) := by
  induction hostnames generalizing st with
  | nil =>
    exact ZoneInv_mono p _ _ hinv (fun x hx => List.mem_append.mpr (Or.inl hx))
  | cons h rest ih =>
    simp only [routeHostLoop]
    cases hstep : zoneAssignStep hostMap st rid h with
    | some st' => exact ZoneInv_zoneAssignStep hostMap p st rid h st' hinv hid hstep
    | none => exact ih st hinv

theorem ZoneInv_routeZonePass (hostMap : List (String × String))
    (st : ZoneState) (routes : List HTTPRoute) (p : List String)
    (hinv : ZoneInv p st)
    (hnd : (p ++ routes.map (fun r => r.uid)).Nodup) :
    ZoneInv (p ++ routes.map (fun r => r.uid))
      (routeZonePass hostMap st routes) := by
  induction routes generalizing st p with
  | nil =>
    simp only [List.map_nil, List.append_nil]
    exact hinv
  | cons route rest ih =>
    simp only [List.map_cons]
    rw [List.append_cons, routeZonePass_cons]
    have hfresh : route.uid ∉ p := by
      simp only [List.map_cons] at hnd
      rw [List.append_cons] at hnd
      have := List.disjoint_of_nodup_append hnd.of_append_left
      intro hmem
      exact this hmem (by simp)
    apply ih _ (p ++ [route.uid])
      (ZoneInv_routeHostLoop hostMap route.uid st route.hostnames p hinv hfresh)
    simp only [List.map_cons] at hnd
    rw [List.append_cons] at hnd
    exact hnd

/-- One gateway's listener fold preserves the invariant, processing its
listener ids. -/
theorem ZoneInv_listenerFold (hostMap : List (String × String))
    (uid : String) (ils : List (Nat × ListenerSpec)) (st : ZoneState)
    (p : List String) (hinv : ZoneInv p st)
    (hnd : (p ++ ils.map (fun il => listenerId uid il.1)).Nodup) :
    ZoneInv (p ++ ils.map (fun il => listenerId uid il.1))
      (ils.foldl (listenerZoneStep hostMap uid) st) := by
  induction ils generalizing st p with
  | nil =>
    simp only [List.map_nil, List.append_nil]
    exact hinv
  | cons il rest ih =>
    simp only [List.map_cons, List.foldl_cons]
    rw [List.append_cons]
    have hfresh : listenerId uid il.1 ∉ p := by
      simp only [List.map_cons] at hnd
      rw [List.append_cons] at hnd
      have := List.disjoint_of_nodup_append hnd.of_append_left
      intro hmem
      exact this hmem (by simp)
    have hstep : ZoneInv (p ++ [listenerId uid il.1])
        (listenerZoneStep hostMap uid st il) := by
      simp only [listenerZoneStep]
      cases il.2.hostname with
      | none =>
        exact ZoneInv_mono p _ _ hinv
          (fun x hx => List.mem_append.mpr (Or.inl hx))
      | some hs =>
        simp only
        cases hstep : zoneAssignStep hostMap st (listenerId uid il.1) hs with
        | some st' =>
          exact ZoneInv_zoneAssignStep hostMap p st _ hs st' hinv hfresh hstep
        | none =>
          exact ZoneInv_mono p _ _ hinv
            (fun x hx => List.mem_append.mpr (Or.inl hx))
    apply ih _ (p ++ [listenerId uid il.1]) hstep
    simp only [List.map_cons] at hnd
    rw [List.append_cons] at hnd
    exact hnd

theorem enum_map_listenerId (uid : String) (ls : List ListenerSpec) :
    ls.enum.map (fun il => listenerId uid il.1)
      = (List.range ls.length).map (fun i => listenerId uid i) := by
  have h1 : ls.enum.map (fun il => listenerId uid il.1)
      = (ls.enum.map Prod.fst).map (fun i => listenerId uid i) := by
    rw [List.map_map]
    rfl
  rw [h1, List.enum_map_fst]

theorem ZoneInv_listenerZonePass (hostMap : List (String × String))
    (st : ZoneState) (gws : List Gateway) (p : List String)
    (hinv : ZoneInv p st) (hnd : (p ++ listenerIds gws).Nodup) :
    ZoneInv (p ++ listenerIds gws) (listenerZonePass hostMap st gws) := by
  induction gws generalizing st p with
  | nil =>
    simp only [listenerIds, List.flatMap_nil, List.append_nil]
    exact hinv
  | cons gw rest ih =>
    rw [listenerIds_cons] at hnd ⊢
    rw [← List.append_assoc] at hnd ⊢
    simp only [listenerZonePass, List.foldl_cons]
    rw [show (List.foldl (fun st gw =>
        gw.listeners.enum.foldl (listenerZoneStep hostMap gw.uid) st)
        (gw.listeners.enum.foldl (listenerZoneStep hostMap gw.uid) st) rest)
      = listenerZonePass hostMap
          (gw.listeners.enum.foldl (listenerZoneStep hostMap gw.uid) st) rest
      from rfl]
    apply ih _ _ ?_ hnd
    have := ZoneInv_listenerFold hostMap gw.uid gw.listeners.enum st p hinv
      (by rw [enum_map_listenerId]; exact hnd.of_append_left)
    rw [enum_map_listenerId] at this
    exact this

/-- C10, counterexample: with pairwise distinct INPUT resource ids, the
zone `x.com` ends up with the member id `g-listener-0` twice — the
claim's distinctness hypothesis does not cover collisions with
synthesized listener ids. -/
theorem zone_member_duplicated_collision :
    (["g", "g-listener-0"] : List String).Nodup
    ∧ getKey? (zoneStateFinal collC10).dnsZoneMap "x.com"
      = some ["g-listener-0", "g-listener-0"]
    ∧ ¬ (["g-listener-0", "g-listener-0"] : List String).Nodup := by
  refine ⟨by decide, by decide, by decide⟩

/-- C10, amended: with ALL node ids pairwise distinct — input resource
ids together with synthesized listener ids — every member list in the
zone-membership map, and hence in every emitted Zone, is duplicate-free;
consequently the code's multiset comparison of member lists coincides
with set equality on them. -/
theorem zone_members_nodup (c : ResourceCollection)
    (hids : (allZoneIds c).Nodup) :
    (∀ zone ms, getKey? (zoneStateFinal c).dnsZoneMap zone = some ms →
      ms.Nodup)
    ∧ (∀ o : List String, ∀ zn ∈ (buildGraph c o).dnsZones, zn.nodes.Nodup)
    ∧ (∀ zone1 ms1 zone2 ms2,
        getKey? (zoneStateFinal c).dnsZoneMap zone1 = some ms1 →
        getKey? (zoneStateFinal c).dnsZoneMap zone2 = some ms2 →
        (slicesEqual ms1 ms2 = true ↔ (∀ x, x ∈ ms1 ↔ x ∈ ms2))) := by
  have hfinal : ZoneInv (allZoneIds c) (zoneStateFinal c) := by
    rw [zoneStateFinal_eq]
    have h1 : ZoneInv ([] ++ c.dnsRecords.map (fun d => d.uid))
        ((c.dnsRecords.foldl dnsZoneStep
          ([], { dnsZoneMap := [], nodeZoneMap := [], nodePrimaryZone := [] })).2) :=
      ZoneInv_dnsFold c.dnsRecords _ [] ZoneInv_init
        (by simpa using (hids.of_append_left).of_append_left)
    simp only [List.nil_append] at h1
    have h2 := ZoneInv_routeZonePass (dnsZonePass c.dnsRecords).1
      (dnsZonePass c.dnsRecords).2 c.httpRoutes _ h1 hids.of_append_left
    have h3 := ZoneInv_listenerZonePass (dnsZonePass c.dnsRecords).1 _
      c.gateways _ h2 hids
    exact h3
  refine ⟨?_, ?_, ?_⟩
  · intro zone ms hms
    exact (hfinal.1 zone ms hms).1
  · intro o zn hzn
    simp only [buildGraph] at hzn
    have hpair : (zn.name, zn.nodes) ∈ (emitZones
        ((o.map (zoneInfoOf (zoneStateFinal c).dnsZoneMap)))).map
        (fun z => (z.name, z.nodes)) :=
      List.mem_map_of_mem _ hzn
    rw [emitZones, emitZones_name_nodes] at hpair
    simp only [List.map_nil, List.nil_append] at hpair
    rcases List.mem_map.mp hpair with ⟨zi, hzi, heq⟩
    have hnodes : zn.nodes = zi.nodeIDs := by
      have := congrArg Prod.snd heq
      simpa using this.symm
    rcases List.mem_map.mp (List.mem_of_mem_filter hzi) with ⟨zoneName, _, rfl⟩
    rw [hnodes]
    simp only [zoneInfoOf]
    cases hcase : getKey? (zoneStateFinal c).dnsZoneMap zoneName with
    | some ms =>
      simp only [hcase, Option.getD_some]
      exact (hfinal.1 zoneName ms hcase).1
    | none =>
      simp only [hcase, Option.getD_none]
      exact List.nodup_nil
  · intro zone1 ms1 zone2 ms2 h1 h2
    exact slicesEqual_iff_same_mem ms1 ms2
      (hfinal.1 zone1 ms1 h1).1 (hfinal.1 zone2 ms2 h2).1

/-- C10 amended theorem, witness: the member-nodup property
instantiated at `collC10w`. -/
theorem zone_members_nodup_witness :
    (allZoneIds collC10w).Nodup
    ∧ ((∀ zone ms,
        getKey? (zoneStateFinal collC10w).dnsZoneMap zone = some ms →
          ms.Nodup)
      ∧ (∀ o : List String, ∀ zn ∈ (buildGraph collC10w o).dnsZones,
          zn.nodes.Nodup)
      ∧ (∀ zone1 ms1 zone2 ms2,
          getKey? (zoneStateFinal collC10w).dnsZoneMap zone1 = some ms1 →
          getKey? (zoneStateFinal collC10w).dnsZoneMap zone2 = some ms2 →
          (slicesEqual ms1 ms2 = true ↔ (∀ x, x ∈ ms1 ↔ x ∈ ms2)))) :=
  ⟨by decide, zone_members_nodup collC10w (by decide)⟩

end GwapiGraph

